import Mathlib

/-!
Verification development for the VeloVAE transition-graph and branching-ODE
training code (`velovae/model/TransitionGraph.py`, `velovae/model/BrODE.py`).

The Python source is shallowly embedded: numpy float matrices become functions
over `Fin n` with exact rational (or generic linearly ordered) entries, numpy
`-inf` entries become `⊥ : WithBot _`, Python dictionaries become association
lists or `Option`-valued maps, fallible indexing/lookups return `Except PyErr`,
and `np.random` draws are threaded through an explicit oracle `ℕ → ℕ`.
Unbounded Python loops are given explicit fuel; the fuel bounds are proved
sufficient wherever a theorem depends on them.
-/

/-- Runtime errors a Python snippet can raise: dictionary `KeyError`,
out-of-range indexing `IndexError`, unbound-name `NameError`, and a marker for
exhausted loop fuel (a loop the Python source would never exit). -/
inductive PyErr where
  | keyError : PyErr
  | indexError : PyErr
  | nameError : PyErr
  | fuelExhausted : PyErr
deriving DecidableEq, Repr

/-! ## Cell-type label encoding (`encode_type`, `str2int`, `int2str`) -/

section Encoding

variable {α : Type} [DecidableEq α]

/-- Embedding of `encode_type` (TransitionGraph.py lines 11-24): iterate over
the raw cell types with `enumerate`, building the forward dictionary
`label_dic : type ↦ index` and the reverse dictionary
`label_dic_rev : index ↦ type` by successive dictionary writes. -/
def encode_type (cell_types_raw : List α) : (α → Option ℕ) × (ℕ → Option α) :=
  cell_types_raw.enum.foldl
    (fun d p => (Function.update d.1 p.2 (some p.1), Function.update d.2 p.1 (some p.2)))
    (fun _ => none, fun _ => none)

/-- Elementwise dictionary lookup over a list, failing (Python `KeyError`)
when any key is missing. -/
def mapO {β γ : Type} (f : β → Option γ) : List β → Option (List γ)
  | [] => some []
  | x :: rest =>
    match f x, mapO f rest with
    | some y, some ys => some (y :: ys)
    | _, _ => none

/-- Embedding of `str2int` (lines 81-82): look every label up in `label_dic`;
a missing key is a Python `KeyError`, modelled by `none`. -/
def str2int (cell_labels_raw : List α) (label_dic : α → Option ℕ) : Option (List ℕ) :=
  mapO label_dic cell_labels_raw

/-- Embedding of `int2str` (lines 84-85). -/
def int2str (cell_labels : List ℕ) (label_dic_rev : ℕ → Option α) : Option (List α) :=
  mapO label_dic_rev cell_labels

/-- Embedding of `np.unique` applied to a label array (TransGraph constructor,
line 342): the sorted list of distinct values. -/
def npUnique [LinearOrder α] (l : List α) : List α :=
  l.dedup.insertionSort (· ≤ ·)

/-- Embedding of `decode_graph` (lines 39-49).  The body decodes the graph and
initial types into the local variables `graph_dec` and `init_types_dec`, but
the `return` statement reads the names `graph_enc` and `init_types_enc`.  Name
resolution is modelled by the list of local names bound in the function body;
the returned expression looks its two names up in that environment and raises
`NameError` when a name is unbound. -/
def decode_graph (graph : List (ℕ × List ℕ)) (init_types : List ℕ)
    (label_dic_rev : ℕ → Option α) :
    Except PyErr (List (α × List α) × List α) := do
  let graph_dec ← match mapO
      (fun p : ℕ × List ℕ =>
        match label_dic_rev p.1, mapO label_dic_rev p.2 with
        | some k, some ch => some (k, ch)
        | _, _ => none) graph with
    | some g => Except.ok g
    | none => Except.error PyErr.keyError
  let init_types_dec ← match mapO label_dic_rev init_types with
    | some l => Except.ok l
    | none => Except.error PyErr.keyError
  -- local environment of the function body at the `return` statement
  let locals := [0, 1, 2, 3, 4]
  -- names, coded: 0 = graph, 1 = init_types, 2 = label_dic_rev,
  --               3 = graph_dec, 4 = init_types_dec
  -- the return statement evaluates the names `graph_enc` (code 5) and
  -- `init_types_enc` (code 6), neither of which is bound
  if (5 ∈ locals) ∧ (6 ∈ locals) then
    pure (graph_dec, init_types_dec)
  else
    Except.error PyErr.nameError

end Encoding

/-! ## Graph pruning (`TransGraph.compute_transition_deterministic`, lines 415-431)

The per-row pruning of the normalized transition-probability matrix: keep the
top `n_par` candidate parents with initial time not later than the child, add a
`1e-3` floor to every strictly earlier candidate, and re-normalize each row.
Matrix entries are exact rationals; `x / 0 = 0` in `ℚ` stands in for the
`0/0 → NaN` a zero row would produce under numpy. -/

/-- Embedding of `np.flip(np.argsort(row))` (line 417): indices sorted by
ascending value (a stable sort; numpy leaves tie order unspecified, the claims
never depend on it) and then reversed. -/
def npArgsortDesc {n : ℕ} (row : Fin n → ℚ) : List (Fin n) :=
  ((List.finRange n).insertionSort (fun a b => row a ≤ row b)).reverse

/-- Embedding of the selection loop (lines 418-424): walk the indices in
descending-weight order, copy the raw weight of every candidate that is not the
child itself and has initial time at most the child time, and stop as soon as
the eligible-candidate count reaches `n_par` (the count check runs at the end
of every iteration, exactly as in the source). -/
def selectGo {n : ℕ} (P_raw : Fin n → Fin n → ℚ) (t_init : Fin n → ℚ) (i : Fin n)
    (n_par : ℕ) : List (Fin n) → ℕ → (Fin n → ℚ) → (Fin n → ℚ)
  | [], _, P => P
  | j :: rest, count, P =>
    if (¬ j = i) ∧ t_init j ≤ t_init i then
      let P1 := Function.update P j (P_raw i j)
      if count + 1 = n_par then P1 else selectGo P_raw t_init i n_par rest (count + 1) P1
    else
      if count = n_par then P else selectGo P_raw t_init i n_par rest count P

/-- One pruned (un-normalized) row: the selected entries plus the `1e-3` floor
added to every strictly earlier type (lines 426-428).  The `assert P[i,i]==0`
of line 425 is proved to always hold (`pruneRow_self`), so it is not modelled
as a failure branch. -/
def pruneRow {n : ℕ} (P_raw : Fin n → Fin n → ℚ) (t_init : Fin n → ℚ) (n_par : ℕ)
    (i : Fin n) : Fin n → ℚ :=
  let P1 := selectGo P_raw t_init i n_par (npArgsortDesc (P_raw i)) 0 (fun _ => 0)
  fun j => P1 j + (if t_init j < t_init i then 1/1000 else 0)

/-- Embedding of `P = P / P.sum(1).reshape(-1,1)` (lines 430-431). -/
def rowNormalize {n : ℕ} (P : Fin n → Fin n → ℚ) : Fin n → Fin n → ℚ :=
  fun i j => P i j / (∑ k, P i k)

/-- The pruning step of `compute_transition_deterministic` (lines 415-431):
select, floor, and row-normalize. -/
def pruneStep {n : ℕ} (P_raw : Fin n → Fin n → ℚ) (t_init : Fin n → ℚ)
    (n_par : ℕ) : Fin n → Fin n → ℚ :=
  rowNormalize (fun i => pruneRow P_raw t_init n_par i)

/-- The composite label mapping built by the `TransGraph` constructor (lines
342-343): `np.unique` of the raw per-cell labels, then `encode_type`. -/
def transGraphLabelDic {α : Type} [DecidableEq α] [LinearOrder α]
    (cell_labels_raw : List α) : (α → Option ℕ) × (ℕ → Option α) :=
  encode_type (npUnique cell_labels_raw)

/-- The list of distinct labels in order of first occurrence.  This definition
follows the wording of the specification ("order = first-seen enumeration"),
for comparison against the sorted order the source actually uses. -/
def firstSeenDistinct {α : Type} [DecidableEq α] (l : List α) : List α :=
  l.foldl (fun acc x => if x ∈ acc then acc else acc ++ [x]) []

/-! ## BrODE training loop (`BrODE.train_epoch` lines 438-476, `BrODE.train` lines 513-605)

Only the observable control state of the loop is modelled: the iteration
counter, the early-stop counter `n_drop`, and the list of held-out
log-likelihood values.  The value returned by the k-th call to `self.test` is
supplied by an oracle `ll : ℕ → ℚ` (gradient steps and noise re-estimation
influence those values, which the oracle absorbs; they do not otherwise touch
the control flow). -/

/-- Mutable training state of a `BrODE` instance: `counter`, `n_drop` and
`loss_test` (initialized to `0, 0, []` in `BrODE.__init__`, lines 369-371). -/
structure TrainState where
  counter : ℕ
  n_drop : ℕ
  loss_test : List ℚ
deriving DecidableEq, Repr

/-- Training-loop configuration: `n_epochs`, `test_iter`, `early_stop`,
`early_stop_thred`, and the number of minibatches per epoch. -/
structure TrainConfig where
  n_epochs : ℕ
  test_iter : ℕ
  early_stop : ℕ
  early_stop_thred : ℚ
  batches_per_epoch : ℕ
deriving Repr

/-- The state of a freshly constructed model (`BrODE.__init__`). -/
def brodeInit : TrainState := ⟨0, 0, []⟩

/-- One iteration of the minibatch loop in `train_epoch` (lines 448-476): if
the counter is 1 or divisible by `test_iter`, evaluate on the test set; when a
previous test value exists, increment `n_drop` if the improvement is at most
`early_stop_thred` and reset it to 0 otherwise; append the value; stop when
`n_drop` reaches a positive `early_stop`.  Otherwise run the gradient step and
advance the counter.  Returns the new state and the `stop_training` flag. -/
def batchStep (cfg : TrainConfig) (ll : ℕ → ℚ) (s : TrainState) : TrainState × Bool :=
  if s.counter = 1 ∨ s.counter % cfg.test_iter = 0 then
    let v := ll s.loss_test.length
    let nd := match s.loss_test.getLast? with
      | some prev => if v - prev ≤ cfg.early_stop_thred then s.n_drop + 1 else 0
      | none => s.n_drop
    if cfg.early_stop ≤ nd ∧ 0 < cfg.early_stop then
      (⟨s.counter, nd, s.loss_test ++ [v]⟩, true)
    else
      (⟨s.counter + 1, nd, s.loss_test ++ [v]⟩, false)
  else
    (⟨s.counter + 1, s.n_drop, s.loss_test⟩, false)

/-- The minibatch loop of `train_epoch` over a given number of batches, with
the early-stop `break`. -/
def runEpoch (cfg : TrainConfig) (ll : ℕ → ℚ) : ℕ → TrainState → TrainState × Bool
  | 0, s => (s, false)
  | b + 1, s =>
    let r := batchStep cfg ll s
    if r.2 then (r.1, true) else runEpoch cfg ll b r.1

/-- Embedding of `BrODE.train_epoch`: one pass over the loader. -/
def train_epoch (cfg : TrainConfig) (ll : ℕ → ℚ) (s : TrainState) : TrainState × Bool :=
  runEpoch cfg ll cfg.batches_per_epoch s

/-- The epoch loop of `BrODE.train` (lines 580-599): run epochs, breaking as
soon as an epoch reports `stop_training`.  Returns the final state and the
number of epoch iterations that were entered. -/
def runTrain (cfg : TrainConfig) (ll : ℕ → ℚ) : ℕ → TrainState → TrainState × ℕ
  | 0, s => (s, 0)
  | e + 1, s =>
    let r := train_epoch cfg ll s
    if r.2 then (r.1, 1)
    else
      let rest := runTrain cfg ll e r.1
      (rest.1, rest.2 + 1)

/-- Embedding of `BrODE.train` starting from a fresh model. -/
def train (cfg : TrainConfig) (ll : ℕ → ℚ) : TrainState × ℕ :=
  runTrain cfg ll cfg.n_epochs brodeInit

/-! ## Arborescence solver (`edmond_chu_liu` and helpers, TransitionGraph.py lines 114-314)

Edge weights are `WithBot W` for a linearly ordered type `W` with subtraction
(`⊥` plays numpy `-inf`; the source only compares and subtracts weights,
never multiplies or divides, so a `LinearOrder` with `Sub` captures exactly
the float operations used).  `graph i j` is the weight of the edge `j → i`.
Fallible indexing and dictionary lookups run in `Except PyErr`; `np.random`
draws come from an oracle `rng : ℕ → ℕ` indexed by the number of draws already
consumed.  The recursion of `edmond_chu_liu` is driven by explicit fuel; fuel
`≥ n` is proved sufficient wherever a theorem needs it. -/

section Solver

variable {W : Type} [LinearOrder W] [Sub W]

/-- The in-place `graph[r] = -np.inf` of line 248: every edge into the root is
erased. -/
def clearRow {n : ℕ} (graph : Fin n → Fin n → WithBot W) (r : Fin n) :
    Fin n → Fin n → WithBot W :=
  fun i j => if i = r then ⊥ else graph i j

/-- The maximum of the non-`⊥` entries of a row (`np.max(graph[i][idx_noninf])`,
line 257), or `⊥` when the row has no finite entry. -/
def rowMax {n : ℕ} (row : Fin n → WithBot W) : WithBot W :=
  ((List.finRange n).filter (fun j => ¬ row j = ⊥)).foldl (fun m j => max m (row j)) ⊥

/-- Lines 255-258: when the row has a finite entry, the best parent is the
first column attaining the row maximum (`np.where(graph[i]==max_val)[0][0]`);
otherwise `none` (the fallback branch of lines 259-260 fires). -/
def bestParent {n : ℕ} (row : Fin n → WithBot W) : Option (Fin n) :=
  if rowMax row = ⊥ then none
  else (List.finRange n).find? (fun j => row j = rowMax row)

/-- Number of rows among `0..i-1` whose parent selection falls back to a
random draw: the index of the draw row `i` consumes. -/
def fallbackIdx {n : ℕ} (g1 : Fin n → Fin n → WithBot W) (i : Fin n) : ℕ :=
  ((List.finRange n).filter (fun k => k < i ∧ bestParent (g1 k) = none)).length

/-- Number of random draws the parent-selection pass consumes. -/
def drawsUsed {n : ℕ} (g1 : Fin n → Fin n → WithBot W) : ℕ :=
  ((List.finRange n).filter (fun k => bestParent (g1 k) = none)).length

/-- The parent array of lines 253-261: best incoming edge per row, with the
`(i + np.random.choice(n_type)) % n_type` fallback for rows with no finite
entry. -/
def parentsFn {n : ℕ} (g1 : Fin n → Fin n → WithBot W) (rng : ℕ → ℕ) (i : Fin n) :
    Fin n :=
  match bestParent (g1 i) with
  | some p => p
  | none => ⟨(i.val + rng (fallbackIdx g1 i)) % n, Nat.mod_lt _ i.pos⟩

/-- The pruned adjacency list of lines 263-267: node `i ≠ r` is appended (in
ascending order of `i`) to the child list of its parent. -/
def adjOf {n : ℕ} (par : Fin n → Fin n) (r : Fin n) (p : Fin n) : List (Fin n) :=
  (List.finRange n).filter (fun i => ¬ i = r ∧ par i = p)

/-- The traceback walk of `get_loop` (lines 199-209): follow `trace_back` from
`start`, collecting antecedents, until the antecedent of the current node is
`start` (append `start` and finish) or a key is missing (Python `KeyError`:
return the partial list).  The walk is fueled; on all states reached by
`check_loop` it terminates within `n` steps (proved where used), while Python
would not terminate on the remaining states. -/
def getLoopWalk {n : ℕ} (tb : Fin n → Option (Fin n)) (start : Fin n) :
    ℕ → Fin n → List (Fin n) → List (Fin n)
  | 0, _, acc => acc
  | fuel + 1, ptr, acc =>
    match tb ptr with
    | none => acc
    | some nxt => if nxt = start then acc ++ [start]
                  else getLoopWalk tb start fuel nxt (acc ++ [nxt])

/-- Embedding of `get_loop` (lines 194-214): the flipped traceback loop and
the ascending list of nodes outside it. -/
def get_loop {n : ℕ} (tb : Fin n → Option (Fin n)) (start : Fin n) :
    List (Fin n) × List (Fin n) :=
  let l := getLoopWalk tb start n start []
  (l.reverse, (List.finRange n).filter (fun i => ¬ i ∈ l))

/-- Breadth-first state of `check_loop` (lines 220-234): the queue, the
per-node checked flags, and the `trace_back` dictionary. -/
structure BfsState (n : ℕ) where
  queue : List (Fin n)
  checked : Fin n → Bool
  tb : Fin n → Option (Fin n)

/-- One origin of `check_loop` (the `while` of lines 223-234): pop the queue;
a checked node triggers `get_loop` — a length-1 loop `break`s (abandon this
origin, `none`), any other loop is returned; an unchecked node is marked and
its children enqueued with their traceback set.  `none` also stands for an
emptied queue.  The fuel-out branch is unreachable for fuel `> n` (each
non-final iteration marks a new node). -/
def bfsAux {n : ℕ} (adj : Fin n → List (Fin n)) :
    ℕ → BfsState n → Option (List (Fin n) × List (Fin n))
  | 0, _ => none
  | fuel + 1, s =>
    match s.queue with
    | [] => none
    | ptr :: rest =>
      if s.checked ptr then
        let lo := get_loop s.tb ptr
        if lo.1.length = 1 then none else some lo
      else
        bfsAux adj fuel
          ⟨rest ++ adj ptr,
           Function.update s.checked ptr true,
           (adj ptr).foldl (fun t c => Function.update t c (some ptr)) s.tb⟩

/-- The origin loop of `check_loop` (line 219): try each start node in order;
the first breadth-first search that returns a loop wins. -/
def checkLoopGo {n : ℕ} (adj : Fin n → List (Fin n)) :
    List (Fin n) → List (Fin n) × List (Fin n)
  | [] => ([], List.finRange n)
  | o :: rest =>
    match bfsAux adj (n + 1) ⟨[o], fun _ => false, fun _ => none⟩ with
    | some lo => lo
    | none => checkLoopGo adj rest

/-- Embedding of `check_loop` (lines 216-236). -/
def check_loop {n : ℕ} (adj : Fin n → List (Fin n)) : List (Fin n) × List (Fin n) :=
  checkLoopGo adj (List.finRange n)

/-- Difference on `WithBot W` as used by `merge_nodes` line 138: both operands
are finite at every evaluation the source reaches (the subtrahend is a row
maximum of a row with a finite entry), so the junk value `⊥` for the remaining
cases is never consulted. -/
def wsub : WithBot W → WithBot W → WithBot W
  | some a, some b => some (a - b)
  | _, _ => ⊥

/-- Result of `merge_nodes`: the integer-valued `v_map` as a total function
into `Fin m`, the `v_to_loop` and `loop_to_v` dictionaries (keyed by original
node index, newest entry first), and the merged adjacency matrix. -/
structure MergeData (n m : ℕ) (W : Type) where
  vmap : Fin n → Fin m
  vToLoop : List (ℕ × Fin n)
  wToLoop : List (ℕ × WithBot W)
  loopToV : List (ℕ × Fin n)
  wFromLoop : List (ℕ × WithBot W)
  graphNew : Fin m → Fin m → WithBot W

/-- Python-dict lookup in a newest-first association list. -/
def dictGet {β : Type} (d : List (ℕ × β)) (k : ℕ) : Option β :=
  (d.find? (fun p => p.1 = k)).map (fun p => p.2)

/-- One inner iteration of the `v_to_loop` / `weight_to_loop` accumulation
(lines 136-141): an edge `y → x` into the loop node `x` proposes `x` with
reduced cost `graph[x,y] - graph[x,parents[x]]`, kept when `y` is new or the
proposal is strictly better. -/
def tlStep {n : ℕ} (graph : Fin n → Fin n → WithBot W) (par : Fin n → Fin n) (x : Fin n)
    (acc : List (ℕ × Fin n) × List (ℕ × WithBot W)) (y : Fin n) :
    List (ℕ × Fin n) × List (ℕ × WithBot W) :=
  if ¬ graph x y = ⊥ then
    let w := wsub (graph x y) (graph x (par x))
    match dictGet acc.2 y.val with
    | none => ((y.val, x) :: acc.1, (y.val, w) :: acc.2)
    | some w0 => if w0 < w then ((y.val, x) :: acc.1, (y.val, w) :: acc.2) else acc
  else acc

/-- The `v_to_loop` / `weight_to_loop` accumulation of lines 133-141: `tlStep`
folded over each loop node `x` (in loop order) and outside node `y` (in
ascending order). -/
def toLoopDicts {n : ℕ} (graph : Fin n → Fin n → WithBot W) (par : Fin n → Fin n)
    (loop v_outside : List (Fin n)) : List (ℕ × Fin n) × List (ℕ × WithBot W) :=
  loop.foldl (fun acc x => v_outside.foldl (tlStep graph par x) acc) ([], [])

/-- One inner iteration of the `loop_to_v` / `weight_from_loop` accumulation
(lines 144-148): an edge `x → y` out of the loop node `x` proposes `x` with
weight `graph[y,x]`, kept when `y` is new or the proposal is strictly
better. -/
def flStep {n : ℕ} (graph : Fin n → Fin n → WithBot W) (x : Fin n)
    (acc : List (ℕ × Fin n) × List (ℕ × WithBot W)) (y : Fin n) :
    List (ℕ × Fin n) × List (ℕ × WithBot W) :=
  if ¬ graph y x = ⊥ then
    let w := graph y x
    match dictGet acc.2 y.val with
    | none => ((y.val, x) :: acc.1, (y.val, w) :: acc.2)
    | some w0 => if w0 < w then ((y.val, x) :: acc.1, (y.val, w) :: acc.2) else acc
  else acc

/-- The `loop_to_v` / `weight_from_loop` accumulation of lines 142-148. -/
def fromLoopDicts {n : ℕ} (graph : Fin n → Fin n → WithBot W)
    (loop v_outside : List (Fin n)) : List (ℕ × Fin n) × List (ℕ × WithBot W) :=
  loop.foldl (fun acc x => v_outside.foldl (flStep graph x) acc) ([], [])

/-- The integer `v_map` of lines 120-129: outside nodes are enumerated in
ascending order starting from 0, and every loop node maps to the next index. -/
def vMapNat {n : ℕ} (v_outside : List (Fin n)) (i : Fin n) : ℕ :=
  if i ∈ v_outside then v_outside.indexOf i else v_outside.length

/-- The merged adjacency matrix written cell by cell in lines 151-161: both
endpoints outside (and not shadowed by an earlier duplicate) keep their
original weight, edges into the super node (index `len v_outside`) read
`weight_to_loop`, edges out of it read `weight_from_loop`, and every other
cell keeps the `-inf` initialisation of line 119. -/
def mergedGraph {n : ℕ} (m : ℕ) (graph : Fin n → Fin n → WithBot W)
    (tl2 fl2 : List (ℕ × WithBot W)) (v_outside : List (Fin n)) :
    Fin m → Fin m → WithBot W :=
  fun a b =>
    if ha : a.val < v_outside.length then
      let x := v_outside.get ⟨a.val, ha⟩
      if hb : b.val < v_outside.length then
        let y := v_outside.get ⟨b.val, hb⟩
        if v_outside.indexOf x = a.val ∧ v_outside.indexOf y = b.val then
          graph x y
        else ⊥
      else if b.val = v_outside.length ∧ v_outside.indexOf x = a.val then
        (dictGet fl2 x.val).getD ⊥
      else ⊥
    else if a.val = v_outside.length then
      if hb : b.val < v_outside.length then
        let y := v_outside.get ⟨b.val, hb⟩
        if v_outside.indexOf y = b.val then (dictGet tl2 y.val).getD ⊥ else ⊥
      else ⊥
    else ⊥

/-- Embedding of `merge_nodes` (lines 114-162) for merged size
`m = n - len(loop) + 1` (line 150).  Python writes the merged matrix cell by
cell, raising `IndexError` at the first out-of-range `v_map` value (possible
only when the loop list is degenerate); the embedding performs the range check
up front, which is observationally equivalent for every property proved here.
All cells written by the source are pairwise distinct, so the merged matrix is
given directly as a function of the cell: position `k < len(v_outside)` holds
the outside node `v_outside[k]` (when that node is not shadowed by an earlier
duplicate), position `len(v_outside)` is the super node `vc`. -/
def merge_nodes {n : ℕ} (m : ℕ) (graph : Fin n → Fin n → WithBot W) (par : Fin n → Fin n)
    (loop v_outside : List (Fin n)) :
    Except PyErr (MergeData n m W) :=
  if hv : v_outside.length < m then
    let vm : Fin n → Fin m := fun i =>
      ⟨vMapNat v_outside i, by
        unfold vMapNat
        split
        case isTrue h => exact lt_trans (List.indexOf_lt_length.2 h) hv
        case isFalse h => exact hv⟩
    let vc : Fin m := ⟨v_outside.length, hv⟩
    let tl := toLoopDicts graph par loop v_outside
    let fl := fromLoopDicts graph loop v_outside
    Except.ok
      { vmap := vm
        vToLoop := tl.1
        wToLoop := tl.2
        loopToV := fl.1
        wFromLoop := fl.2
        graphNew := mergedGraph m graph tl.2 fl.2 v_outside }
  else Except.error PyErr.indexError

end Solver

section SolverMain

variable {W : Type} [LinearOrder W] [Sub W]

/-- The steps of one `edmond_chu_liu` level after cycle detection (lines
272-313): either return the parent matrix directly (with the `mst[r,r] = 1`
marker of line 311), or contract the detected cycle, recurse (through the
`recur` argument), and expand.  The expansion writes are expressed as one
function with later Python writes taking precedence; all the fallible lookups
of the source (`loop_to_v[x]`, `np.where(mst_merged[vc]>0)[0][0]`,
`v_to_loop[...]`, `np.where(loop==target)[0][0]`) are checked in source
order. -/
def eclBody (n : ℕ) (g1 : Fin n → Fin n → WithBot W) (par : Fin n → Fin n) (r : Fin n)
    (lo : List (Fin n) × List (Fin n))
    (recur : (m : ℕ) → (Fin m → Fin m → WithBot W) → Fin m →
      Except PyErr (Fin m → Fin m → ℕ)) :
    Except PyErr (Fin n → Fin n → ℕ) :=
    let loop := lo.1
    let v_outside := lo.2
    if hl : 2 ≤ loop.length then
      have hne : loop ≠ [] := by
        intro h
        rw [h] at hl
        simp at hl
      match merge_nodes (n - loop.length + 1) g1 par loop v_outside with
      | Except.error e => Except.error e
      | Except.ok md =>
        let vc := md.vmap (loop.head hne)
        match recur (n - loop.length + 1) md.graphNew (md.vmap r) with
        | Except.error e => Except.error e
        | Except.ok mstM =>
          if ∀ x ∈ v_outside, 0 < mstM (md.vmap x) vc → ¬ dictGet md.loopToV x.val = none then
            match (List.finRange (n - loop.length + 1)).find? (fun j => 0 < mstM vc j) with
            | none => Except.error PyErr.indexError
            | some j0 =>
              let src : Fin n := match v_outside.find? (fun x => md.vmap x = j0) with
                | some x => x
                | none =>
                  ⟨j0.val, by
                    have h1 : j0.val < n - loop.length + 1 := j0.isLt
                    have h2 : 0 < n := r.pos
                    omega⟩
              match dictGet md.vToLoop src.val with
              | none => Except.error PyErr.keyError
              | some target =>
                if target ∈ loop then
                  let idx := loop.indexOf target
                  let brk := loop.get
                    ⟨(idx + loop.length - 1) % loop.length, Nat.mod_lt _ (by omega)⟩
                  Except.ok (fun a b =>
                    if a = target ∧ b = brk then 0
                    else if a = target ∧ b = src then 1
                    else if a ∈ v_outside ∧ 0 < mstM (md.vmap a) vc ∧
                        dictGet md.loopToV a.val = some b then
                      mstM (md.vmap a) vc
                    else if (b, a) ∈ loop.zip loop.tail ∨
                        (a = loop.head hne ∧ b = loop.getLast hne) then 1
                    else if a ∈ v_outside ∧ b ∈ v_outside then
                      mstM (md.vmap a) (md.vmap b)
                    else 0)
                else Except.error PyErr.indexError
          else Except.error PyErr.keyError
    else
      Except.ok (fun i j =>
        if i = r then (if j = r then 1 else 0)
        else (if j = par i then 1 else 0))

/-- Embedding of `edmond_chu_liu` (lines 238-314), fueled.  Step order follows
the source: clear the root row (line 248), pick best parents (random fallback
for rows with no finite entry, lines 253-261), detect a cycle (line 270), and
finish through `eclBody`. -/
def ecl : (fuel : ℕ) → (n : ℕ) → (Fin n → Fin n → WithBot W) → Fin n → (ℕ → ℕ) →
    Except PyErr (Fin n → Fin n → ℕ)
  | 0, _, _, _, _ => Except.error PyErr.fuelExhausted
  | fuel + 1, n, graph, r, rng =>
    let g1 := clearRow graph r
    let par := parentsFn g1 rng
    eclBody n g1 par r (check_loop (adjOf par r))
      (fun m gm rm => ecl fuel m gm rm (fun k => rng (k + drawsUsed g1)))

/-- Embedding of the full `edmond_chu_liu` call as seen by the caller: the
returned matrix (or error) together with the contents of the argument array
after the call.  Line 248 assigns `graph[r] = -np.inf` in place before
anything else; every other array the function touches (`graph_merged`, `mst`)
is freshly allocated, so the caller observes exactly the cleared row. -/
def edmond_chu_liu (fuel n : ℕ) (graph : Fin n → Fin n → WithBot W) (r : Fin n)
    (rng : ℕ → ℕ) :
    Except PyErr (Fin n → Fin n → ℕ) × (Fin n → Fin n → WithBot W) :=
  (ecl fuel n graph r rng, clearRow graph r)

end SolverMain

/-! ## Auxiliary definitions used by the theorem statements -/

/-- Extract the error of an `Except` computation, if any. -/
def exceptErr {β : Type} : Except PyErr β → Option PyErr
  | Except.error e => some e
  | Except.ok _ => none

/-- Edge relation of a log-weight adjacency matrix: `gEdge g a b` holds when
the matrix records an edge `a → b` (recall `g i j` is the weight of `j → i`). -/
def gEdge {W : Type} [LinearOrder W] {n : ℕ} (g : Fin n → Fin n → WithBot W)
    (a b : Fin n) : Prop :=
  ¬ g b a = ⊥

/-- Edge relation of a 0/1 output matrix, self-loops excluded: `a → b` when
`M b a = 1` and `a ≠ b` (the diagonal root marker is not an edge here). -/
def mstEdge {n : ℕ} (M : Fin n → Fin n → ℕ) (a b : Fin n) : Prop :=
  M b a = 1 ∧ ¬ b = a

/-- One level of the happy-path predicate after cycle detection: mirror
`eclBody` through the contraction and recurse through `recur`. -/
def happyPathBody {W : Type} [LinearOrder W] [Sub W] (n : ℕ)
    (g1 : Fin n → Fin n → WithBot W) (par : Fin n → Fin n) (r : Fin n)
    (lo : List (Fin n) × List (Fin n))
    (recur : (m : ℕ) → (Fin m → Fin m → WithBot W) → Fin m → Bool) : Bool :=
  if 2 ≤ lo.1.length then
    match merge_nodes (n - lo.1.length + 1) g1 par lo.1 lo.2 with
    | Except.error _ => false
    | Except.ok md => recur (n - lo.1.length + 1) md.graphNew (md.vmap r)
  else true

/-- The happy-path predicate of the arborescence solver: at every recursion
level, every non-root row of the root-cleared graph has at least one finite
entry (so the random fallback of lines 259-260 fires only for the root row,
whose parent value is never consumed).  The recursion mirrors `ecl`; the
parent function is evaluated at a constant oracle, which on the happy path
changes nothing (`ecl_deterministic`). -/
def happyPath {W : Type} [LinearOrder W] [Sub W] :
    (fuel : ℕ) → (n : ℕ) → (Fin n → Fin n → WithBot W) → Fin n → Bool
  | 0, _, _, _ => false
  | fuel + 1, n, graph, r =>
    let g1 := clearRow graph r
    decide (∀ i : Fin n, ¬ i = r → ¬ bestParent (g1 i) = none) &&
      (let par := parentsFn g1 (fun _ => 0)
       happyPathBody n g1 par r (check_loop (adjOf par r))
         (fun m gm rm => happyPath fuel m gm rm))

/-- Two-node chain `0 → 1` with root 0 (weights in `ℤ`): the minimal connected
input exhibiting the diagonal root marker in the solver output. -/
def cexG2 : Fin 2 → Fin 2 → WithBot ℤ := fun i j =>
  if i.val = 1 ∧ j.val = 0 then ((0 : ℤ) : WithBot ℤ) else ⊥

/-- Four-node graph, root 0: nodes 1 and 2 form a mutually reachable pair that
is disconnected from the root, node 3 has no incoming edge at all (so the
random fallback fires for it at the top level). -/
def cexG4 : Fin 4 → Fin 4 → WithBot ℤ := fun i j =>
  if i.val = 1 ∧ j.val = 2 then ((5 : ℤ) : WithBot ℤ)
  else if i.val = 2 ∧ j.val = 1 then ((5 : ℤ) : WithBot ℤ)
  else ⊥

/-- A random stream under which `cexG4` drives the expansion step of
`edmond_chu_liu` into its uncaught `KeyError`. -/
def cexRng : ℕ → ℕ := fun k => [0, 0, 0, 2, 1].getD k 0

/-- Three-node happy-path graph with a genuine 2-cycle between nodes 1 and 2
(mutual weight 5) and root edges of weight 1: exercises cycle contraction. -/
def hpG3 : Fin 3 → Fin 3 → WithBot ℤ := fun i j =>
  if i.val = 1 ∧ j.val = 0 then ((1 : ℤ) : WithBot ℤ)
  else if i.val = 2 ∧ j.val = 0 then ((1 : ℤ) : WithBot ℤ)
  else if i.val = 1 ∧ j.val = 2 then ((5 : ℤ) : WithBot ℤ)
  else if i.val = 2 ∧ j.val = 1 then ((5 : ℤ) : WithBot ℤ)
  else ⊥

/-- Concrete pruning input for the idempotence counterexample: four types with
initial times `[0, 0, 1, 2]` and a row-normalized raw transition matrix. -/
def cexPraw : Fin 4 → Fin 4 → ℚ :=
  ![![0, 1, 0, 0], ![1, 0, 0, 0], ![1/2, 1/2, 0, 0], ![1/2, 3/10, 1/5, 0]]

/-- Initial times for the pruning counterexamples. -/
def cexTinit : Fin 4 → ℚ := ![0, 0, 1, 2]

/-- Two-type raw matrix and initial times for the root-row counterexample of
the pruning invariant: type 0 is the unique earliest type, so its row has no
eligible parent at all. -/
def cexPraw2 : Fin 2 → Fin 2 → ℚ := fun _ _ => 1/2

/-- Initial times for `cexPraw2`. -/
def cexTinit2 : Fin 2 → ℚ := ![0, 1]

/-- Initial breadth-first state for origin `o` (lines 220-222): fresh queue,
flags and traceback. -/
def bfsInit {n : ℕ} (o : Fin n) : BfsState n :=
  ⟨[o], fun _ => false, fun _ => none⟩

/-- The node list of the cycle detected from origin `o` in the functional
parent graph `f` with period `m`, in traversal order (the `get_loop` walk
before the flip of line 211). -/
def cycleList {n : ℕ} (f : Fin n → Fin n) (o : Fin n) (m : ℕ) : List (Fin n) :=
  (List.range m).map (fun j => f^[j + 1] o)

/-- `o` lies on a genuine directed cycle of the functional graph `f`: minimal
period `m ≥ 2` (so not a self-loop, which line 231 discards) avoiding the
root `r` entirely. -/
def IsMinCycle {n : ℕ} (f : Fin n → Fin n) (r o : Fin n) (m : ℕ) : Prop :=
  2 ≤ m ∧ f^[m] o = o ∧ (∀ j, 0 < j → j < m → ¬ f^[j] o = o) ∧ ∀ j, ¬ f^[j] o = r

/-- Number of nodes not yet marked `checked`: the termination measure of each
breadth-first search in `check_loop`. -/
def uncheckedCard {n : ℕ} (s : BfsState n) : ℕ :=
  (Finset.univ.filter (fun x => s.checked x = false)).card

/-- Invariant of the `v_to_loop` / `weight_to_loop` accumulator of lines
133-141: the two dictionaries always hold the same keys, every recorded node
is a loop node with a finite incoming edge from an outside node carrying the
key, and every recorded weight is finite. -/
def TlInv {W : Type} [LinearOrder W] [Sub W] {n : ℕ} (graph : Fin n → Fin n → WithBot W)
    (loop vo : List (Fin n)) (acc : List (ℕ × Fin n) × List (ℕ × WithBot W)) : Prop :=
  (∀ k, (dictGet acc.1 k).isSome = (dictGet acc.2 k).isSome) ∧
  (∀ k x, dictGet acc.1 k = some x →
    x ∈ loop ∧ ∃ y, y ∈ vo ∧ y.val = k ∧ ¬ graph x y = ⊥) ∧
  (∀ k w, dictGet acc.2 k = some w → ¬ w = ⊥)

/-- Invariant of the `loop_to_v` / `weight_from_loop` accumulator of lines
142-148: same as `TlInv` with the edge direction reversed. -/
def FlInv {W : Type} [LinearOrder W] [Sub W] {n : ℕ} (graph : Fin n → Fin n → WithBot W)
    (loop vo : List (Fin n)) (acc : List (ℕ × Fin n) × List (ℕ × WithBot W)) : Prop :=
  (∀ k, (dictGet acc.1 k).isSome = (dictGet acc.2 k).isSome) ∧
  (∀ k x, dictGet acc.1 k = some x →
    x ∈ loop ∧ ∃ y, y ∈ vo ∧ y.val = k ∧ ¬ graph y x = ⊥) ∧
  (∀ k w, dictGet acc.2 k = some w → ¬ w = ⊥)

/-- Invariant of the `check_loop` breadth-first search from origin `o` over the
functional parent graph `f` with root `r` (children of `p` are the non-root
nodes whose parent is `p`).  The conjuncts record: traceback entries agree
with `f`, point at checked parents and never at keys equal to `r`; every node
seen is an `f`-iterated ancestor of `o`; checked or queued non-origin nodes
have their traceback set; each non-origin node is enqueued at most once and
only after its parent was checked; the origin is enqueued at most twice, the
second time only after its parent was checked and with its traceback set; and
everything seen is the origin or differs from the root. -/
def BfsInvariant {n : ℕ} (f : Fin n → Fin n) (r o : Fin n) (s : BfsState n) : Prop :=
  (∀ x p, s.tb x = some p → p = f x ∧ ¬ x = r ∧ s.checked p = true) ∧
  (∀ y, (s.checked y = true ∨ y ∈ s.queue) → ∃ k, f^[k] y = o) ∧
  (∀ y, s.checked y = true → y = o ∨ s.tb y = some (f y)) ∧
  (∀ y, y ∈ s.queue → y = o ∨ s.tb y = some (f y)) ∧
  (∀ x, ¬ x = o → s.queue.count x + (if s.checked x = true then 1 else 0) ≤
      (if ¬ x = r ∧ s.checked (f x) = true then 1 else 0)) ∧
  (s.queue.count o + (if s.checked o = true then 1 else 0) ≤
      1 + (if ¬ o = r ∧ s.checked (f o) = true then 1 else 0)) ∧
  (s.checked o = true → o ∈ s.queue → s.tb o = some (f o)) ∧
  (2 ≤ s.queue.count o → s.tb o = some (f o)) ∧
  (∀ y, s.checked y = true → y = o ∨ ¬ y = r) ∧
  (∀ y, y ∈ s.queue → y = o ∨ ¬ y = r)

/-! ## Theorems: label encoding (claims C5, C6, C9) -/

section EncodingProofs

variable {α : Type} [DecidableEq α]

lemma encode_foldl_fst_notMem (l : List (ℕ × α)) (d : (α → Option ℕ) × (ℕ → Option α))
    (a : α) (h : ∀ p ∈ l, ¬ p.2 = a) :
    (l.foldl (fun (d : (α → Option ℕ) × (ℕ → Option α)) (p : ℕ × α) =>
        (Function.update d.1 p.2 (some p.1), Function.update d.2 p.1 (some p.2))) d).1 a
      = d.1 a := by
  induction l generalizing d with
  | nil => rfl
  | cons p rest ih =>
    rw [List.foldl_cons, ih _ (fun q hq => h q (List.mem_cons_of_mem _ hq))]
    exact Function.update_noteq (fun hh => h p (List.mem_cons_self _ _) hh.symm) _ _

lemma encode_foldl_snd_notIdx (l : List (ℕ × α)) (d : (α → Option ℕ) × (ℕ → Option α))
    (i : ℕ) (h : ∀ p ∈ l, ¬ p.1 = i) :
    (l.foldl (fun (d : (α → Option ℕ) × (ℕ → Option α)) (p : ℕ × α) =>
        (Function.update d.1 p.2 (some p.1), Function.update d.2 p.1 (some p.2))) d).2 i
      = d.2 i := by
  induction l generalizing d with
  | nil => rfl
  | cons p rest ih =>
    rw [List.foldl_cons, ih _ (fun q hq => h q (List.mem_cons_of_mem _ hq))]
    exact Function.update_noteq (fun hh => h p (List.mem_cons_self _ _) hh.symm) _ _

omit [DecidableEq α] in
lemma snd_mem_of_mem_enumFrom {x : ℕ × α} {j : ℕ} {xs : List α}
    (h : x ∈ List.enumFrom j xs) : x.2 ∈ xs := by
  obtain ⟨i, a⟩ := x
  obtain ⟨h1, h2, h3⟩ := List.mem_enumFrom h
  simp only
  rw [h3]
  exact List.getElem_mem _

omit [DecidableEq α] in
lemma fst_ge_of_mem_enumFrom {x : ℕ × α} {j : ℕ} {xs : List α}
    (h : x ∈ List.enumFrom j xs) : j ≤ x.1 := by
  obtain ⟨i, a⟩ := x
  exact (List.mem_enumFrom h).1

lemma encode_foldl_get (types : List α) (hnd : types.Nodup) :
    ∀ (k : ℕ) (d : (α → Option ℕ) × (ℕ → Option α)) (i : ℕ) (h : i < types.length),
    ((List.enumFrom k types).foldl
        (fun (d : (α → Option ℕ) × (ℕ → Option α)) (p : ℕ × α) =>
          (Function.update d.1 p.2 (some p.1), Function.update d.2 p.1 (some p.2)))
        d).1 (types.get ⟨i, h⟩) = some (k + i) ∧
    ((List.enumFrom k types).foldl
        (fun (d : (α → Option ℕ) × (ℕ → Option α)) (p : ℕ × α) =>
          (Function.update d.1 p.2 (some p.1), Function.update d.2 p.1 (some p.2)))
        d).2 (k + i) = some (types.get ⟨i, h⟩) := by
  induction types with
  | nil => intro k d i h; exact absurd h (by simp)
  | cons x rest ih =>
    intro k d i h
    rw [List.enumFrom_cons, List.foldl_cons]
    match i with
    | 0 =>
      constructor
      · rw [encode_foldl_fst_notMem]
        · simp [Function.update_same]
        · intro p hp hpx
          exact (List.nodup_cons.1 hnd).1 (by
            have := snd_mem_of_mem_enumFrom hp
            rwa [hpx] at this)
      · rw [encode_foldl_snd_notIdx]
        · simp [Function.update_same]
        · intro p hp hpk
          have := fst_ge_of_mem_enumFrom hp
          omega
    | j + 1 =>
      have hj : j < rest.length := by simpa using Nat.lt_of_succ_lt_succ h
      have heq : k + (j + 1) = (k + 1) + j := by omega
      have := ih (List.nodup_cons.1 hnd).2 (k + 1)
        (Function.update d.1 x (some k), Function.update d.2 k (some x)) j hj
      rw [heq]
      exact this

lemma encode_type_mem (types : List α) (hnd : types.Nodup) (a : α) (ha : a ∈ types) :
    ∃ i, (encode_type types).1 a = some i ∧ (encode_type types).2 i = some a := by
  obtain ⟨⟨i, hlt⟩, rfl⟩ := List.mem_iff_get.1 ha
  obtain ⟨h1, h2⟩ := encode_foldl_get types hnd 0
    (fun _ => none, fun _ => none) i hlt
  refine ⟨i, ?_, ?_⟩
  · rw [encode_type, List.enum_eq_enumFrom]
    simpa using h1
  · rw [encode_type, List.enum_eq_enumFrom]
    simpa using h2

/-- C5: for any set of distinct cell-type labels and any label array drawn from
it, encoding via the `encode_type` forward dictionary (`str2int`) and decoding
via the reverse dictionary (`int2str`) succeeds and is the identity on the
label array. -/
theorem encode_decode_roundtrip (types labels : List α) (hnd : types.Nodup)
    (hmem : ∀ x ∈ labels, x ∈ types) :
    ∃ codes, str2int labels (encode_type types).1 = some codes ∧
      int2str codes (encode_type types).2 = some labels := by
  induction labels with
  | nil => exact ⟨[], rfl, rfl⟩
  | cons x rest ih =>
    obtain ⟨codes, h1, h2⟩ := ih (fun y hy => hmem y (List.mem_cons_of_mem _ hy))
    obtain ⟨i, hi1, hi2⟩ := encode_type_mem types hnd x (hmem x (List.mem_cons_self _ _))
    refine ⟨i :: codes, ?_, ?_⟩
    · rw [str2int, mapO]
      rw [str2int] at h1
      rw [hi1, h1]
    · rw [int2str, mapO]
      rw [int2str] at h2
      rw [hi2, h2]

/-- Closed witness for `encode_decode_roundtrip`. -/
theorem encode_decode_roundtrip_witness :
    ∃ codes, str2int [1, 0, 1] (encode_type ([0, 1] : List ℕ)).1 = some codes ∧
      int2str codes (encode_type ([0, 1] : List ℕ)).2 = some [1, 0, 1] :=
  encode_decode_roundtrip [0, 1] [1, 0, 1] (by decide) (by decide)

end EncodingProofs

section OrderProofs

variable {α : Type} [DecidableEq α] [LinearOrder α]

lemma npUnique_nodup (l : List α) : (npUnique l).Nodup :=
  ((List.perm_insertionSort _ l.dedup).symm.nodup (List.nodup_dedup l))

lemma npUnique_mem (l : List α) (a : α) : a ∈ npUnique l ↔ a ∈ l := by
  rw [npUnique, (List.perm_insertionSort _ l.dedup).mem_iff, List.mem_dedup]

/-- C6 (amended): the integer code assigned by the mapping the `TransGraph`
constructor builds (`encode_type` over `np.unique` of the labels) enumerates
the distinct observed labels in ascending sorted order — the label at sorted
position `i` receives code `i`, in both directions of the bijection — not in
order of first occurrence. -/
theorem transGraph_code_assignment (l : List α) :
    (npUnique l).Sorted (· ≤ ·) ∧ (npUnique l).Nodup ∧
      (∀ a, a ∈ npUnique l ↔ a ∈ l) ∧
      ∀ (i : ℕ) (h : i < (npUnique l).length),
        (transGraphLabelDic l).1 ((npUnique l).get ⟨i, h⟩) = some i ∧
        (transGraphLabelDic l).2 i = some ((npUnique l).get ⟨i, h⟩) := by
  refine ⟨List.sorted_insertionSort _ _, npUnique_nodup l, npUnique_mem l, ?_⟩
  intro i h
  obtain ⟨h1, h2⟩ := encode_foldl_get (npUnique l) (npUnique_nodup l) 0
    (fun _ => none, fun _ => none) i h
  constructor
  · rw [transGraphLabelDic, encode_type, List.enum_eq_enumFrom]
    simpa using h1
  · rw [transGraphLabelDic, encode_type, List.enum_eq_enumFrom]
    simpa using h2

end OrderProofs

/-- Counterexample to C6 as stated: on the label array `[1, 0]` the distinct
labels in order of first occurrence are `[1, 0]`, so the claim assigns code 0
to label 1; the mapping the constructor actually builds sorts the labels and
assigns label 1 the code 1. -/
theorem transGraph_code_not_first_seen :
    firstSeenDistinct ([1, 0] : List ℕ) = [1, 0] ∧
      (transGraphLabelDic ([1, 0] : List ℕ)).1 1 = some 1 ∧
      ¬ (transGraphLabelDic ([1, 0] : List ℕ)).1 1 = some 0 := by
  decide

/-- C9: whenever `decode_graph` reaches its `return` statement (both decode
loops succeed), it raises `NameError`: the returned names `graph_enc` and
`init_types_enc` are not bound in the function body. -/
theorem decode_graph_name_error {α : Type} [DecidableEq α]
    (graph : List (ℕ × List ℕ)) (init_types : List ℕ) (label_dic_rev : ℕ → Option α)
    (gd : List (α × List α)) (itd : List α)
    (hg : mapO (fun p : ℕ × List ℕ =>
        match label_dic_rev p.1, mapO label_dic_rev p.2 with
        | some k, some ch => some (k, ch)
        | _, _ => none) graph = some gd)
    (hi : mapO label_dic_rev init_types = some itd) :
    decode_graph graph init_types label_dic_rev = Except.error PyErr.nameError := by
  rw [decode_graph, hg, hi]
  rfl

/-- Closed witness for `decode_graph_name_error` at the empty graph. -/
theorem decode_graph_name_error_witness :
    decode_graph [] [] (fun n => some n) = Except.error PyErr.nameError :=
  decode_graph_name_error [] [] (fun n => some n) [] [] rfl rfl

/-! ## Theorems: graph pruning (claims C2, C7) -/

lemma selectGo_apply_self {n : ℕ} (P_raw : Fin n → Fin n → ℚ) (t_init : Fin n → ℚ)
    (i : Fin n) (n_par : ℕ) :
    ∀ (l : List (Fin n)) (c : ℕ) (P : Fin n → ℚ),
      selectGo P_raw t_init i n_par l c P i = P i := by
  intro l
  induction l with
  | nil => intro c P; rfl
  | cons j rest ih =>
    intro c P
    rw [selectGo]
    by_cases hj : (¬ j = i) ∧ t_init j ≤ t_init i
    · rw [if_pos hj]
      by_cases hc : c + 1 = n_par
      · rw [if_pos hc, Function.update_noteq (fun hh => hj.1 hh.symm)]
      · rw [if_neg hc, ih, Function.update_noteq (fun hh => hj.1 hh.symm)]
    · rw [if_neg hj]
      by_cases hc : c = n_par
      · rw [if_pos hc]
      · rw [if_neg hc, ih]

lemma pruneRow_self {n : ℕ} (P_raw : Fin n → Fin n → ℚ) (t_init : Fin n → ℚ)
    (n_par : ℕ) (i : Fin n) : pruneRow P_raw t_init n_par i i = 0 := by
  rw [pruneRow]
  simp only [lt_self_iff_false, if_false, add_zero]
  rw [selectGo_apply_self]

lemma pruneStep_diag {n : ℕ} (P_raw : Fin n → Fin n → ℚ) (t_init : Fin n → ℚ)
    (n_par : ℕ) (i : Fin n) : pruneStep P_raw t_init n_par i i = 0 := by
  show pruneRow P_raw t_init n_par i i / _ = 0
  rw [pruneRow_self, zero_div]

lemma pruneStep_row_sum {n : ℕ} (P_raw : Fin n → Fin n → ℚ) (t_init : Fin n → ℚ)
    (n_par : ℕ) (i : Fin n) :
    (∑ j, pruneStep P_raw t_init n_par i j) = 1 ∨
      ∀ j, pruneStep P_raw t_init n_par i j = 0 := by
  by_cases hs : (∑ k, pruneRow P_raw t_init n_par i k) = 0
  · right
    intro j
    show pruneRow P_raw t_init n_par i j / _ = 0
    rw [hs, div_zero]
  · left
    show (∑ j, pruneRow P_raw t_init n_par i j / (∑ k, pruneRow P_raw t_init n_par i k)) = 1
    rw [← Finset.sum_div, div_self hs]

/-- C2 (amended): every pruned row has diagonal exactly 0, and sums to 1
unless it is identically zero.  A root type with no eligible parent produces
the all-zero row (`0/0` is `0` in `ℚ`, `NaN` under numpy) — not a self-weight
of 1.0; see `pruneStep_no_self_weight_fallback`. -/
theorem pruneStep_rows_normalized {n : ℕ} (P_raw : Fin n → Fin n → ℚ)
    (t_init : Fin n → ℚ) (n_par : ℕ) (i : Fin n) :
    pruneStep P_raw t_init n_par i i = 0 ∧
      ((∑ j, pruneStep P_raw t_init n_par i j) = 1 ∨
        ∀ j, pruneStep P_raw t_init n_par i j = 0) :=
  ⟨pruneStep_diag P_raw t_init n_par i, pruneStep_row_sum P_raw t_init n_par i⟩

/-- Counterexample to C2 as stated: with two types at initial times `[0, 1]`
and a uniform row-normalized raw matrix, the earliest type has no eligible
parent; its pruned row sums to 0 (numpy: NaN), and no self-weight 1.0 fallback
exists — the row does not sum to 1 and the self-weight is 0. -/
theorem pruneStep_no_self_weight_fallback :
    (∑ j, pruneStep cexPraw2 cexTinit2 1 0 j) = 0 ∧
      pruneStep cexPraw2 cexTinit2 1 0 0 = 0 ∧
      ¬ ((∑ j, pruneStep cexPraw2 cexTinit2 1 0 j) = 1 ∨
          pruneStep cexPraw2 cexTinit2 1 0 0 = 1) := by
  have h : ∀ j, pruneStep cexPraw2 cexTinit2 1 0 j = 0 := by
    intro j
    fin_cases j <;>
      norm_num +decide [pruneStep, rowNormalize, pruneRow, selectGo, npArgsortDesc,
        cexPraw2, cexTinit2, List.insertionSort, List.orderedInsert, List.finRange,
        List.range, List.range.loop, Fin.sum_univ_two, List.pmap, Function.update,
        Matrix.cons_val_zero, Matrix.cons_val_one, Matrix.head_cons]
  have hsum : (∑ j, pruneStep cexPraw2 cexTinit2 1 0 j) = 0 := by
    rw [Fin.sum_univ_two, h 0, h 1, add_zero]
  refine ⟨hsum, h 0, ?_⟩
  intro hc
  rcases hc with hc | hc
  · rw [hsum] at hc; norm_num at hc
  · rw [h 0] at hc; norm_num at hc

/-- C7 (amended): re-running the pruning step on an already-pruned matrix
still yields zero diagonal and normalized (or identically zero) rows, but not
in general the same matrix — the `1e-3` floor is added and re-normalized
again on every run, so pruning is not idempotent
(`pruneStep_not_idempotent`). -/
theorem pruneStep_reprune_normalized {n : ℕ} (P_raw : Fin n → Fin n → ℚ)
    (t_init : Fin n → ℚ) (n_par : ℕ) (i : Fin n) :
    pruneStep (pruneStep P_raw t_init n_par) t_init n_par i i = 0 ∧
      ((∑ j, pruneStep (pruneStep P_raw t_init n_par) t_init n_par i j) = 1 ∨
        ∀ j, pruneStep (pruneStep P_raw t_init n_par) t_init n_par i j = 0) :=
  ⟨pruneStep_diag _ t_init n_par i, pruneStep_row_sum _ t_init n_par i⟩

set_option maxHeartbeats 4000000 in
/-- Counterexample to C7 as stated: `cexPraw` is row-normalized, and
`pruneStep cexPraw cexTinit 2` is an already-pruned, row-normalized matrix
(every row sums to 1), yet re-running the pruning step changes entry `(3,2)`
from `1/803` to `803/804409`: the pruning step is not idempotent. -/
theorem pruneStep_not_idempotent :
    pruneStep cexPraw cexTinit 2 3 2 = 1/803 ∧
      pruneStep (pruneStep cexPraw cexTinit 2) cexTinit 2 3 2 = 803/804409 ∧
      ¬ pruneStep (pruneStep cexPraw cexTinit 2) cexTinit 2 = pruneStep cexPraw cexTinit 2 := by
  have h1 : pruneStep cexPraw cexTinit 2 3 2 = 1/803 := by
    norm_num +decide [pruneStep, rowNormalize, pruneRow, selectGo, npArgsortDesc, cexPraw,
      cexTinit, List.insertionSort, List.orderedInsert, List.finRange, List.range,
      List.range.loop, Fin.sum_univ_four, List.pmap, Function.update, Matrix.cons_val_zero,
      Matrix.cons_val_one, Matrix.head_cons, Matrix.cons_val_succ, Matrix.vecHead,
      Matrix.vecTail]
  have h2 : pruneStep (pruneStep cexPraw cexTinit 2) cexTinit 2 3 2 = 803/804409 := by
    norm_num +decide [pruneStep, rowNormalize, pruneRow, selectGo, npArgsortDesc, cexPraw,
      cexTinit, List.insertionSort, List.orderedInsert, List.finRange, List.range,
      List.range.loop, Fin.sum_univ_four, List.pmap, Function.update, Matrix.cons_val_zero,
      Matrix.cons_val_one, Matrix.head_cons, Matrix.cons_val_succ, Matrix.vecHead,
      Matrix.vecTail]
  refine ⟨h1, h2, ?_⟩
  intro h
  have h32 := congrFun (congrFun h 3) 2
  rw [h1, h2] at h32
  norm_num at h32

/-! ## Theorems: BrODE early stopping (claim C3) -/

/-- C3: the early-stop dynamics of `BrODE.train`.  First conjunct: at every
periodic held-out evaluation with a previous value, `n_drop` increments when
the log-likelihood improvement is at most `early_stop_thred` and resets to 0
otherwise.  Second conjunct: with `early_stop = 3`, `test_iter = 2`, two
batches per epoch and 100 epochs, any test log-likelihood sequence whose
improvement never exceeds the threshold stops training during the third epoch
— before exhausting `n_epochs`. -/
theorem brode_early_stop :
    (∀ (cfg : TrainConfig) (ll : ℕ → ℚ) (s : TrainState) (prev : ℚ),
        (s.counter = 1 ∨ s.counter % cfg.test_iter = 0) →
        s.loss_test.getLast? = some prev →
        (batchStep cfg ll s).1.n_drop =
          if ll s.loss_test.length - prev ≤ cfg.early_stop_thred then s.n_drop + 1 else 0) ∧
    (∀ (ll : ℕ → ℚ) (thred : ℚ),
        (∀ k, ll (k + 1) - ll k ≤ thred) →
        (train ⟨100, 2, 3, thred, 2⟩ ll).2 = 3 ∧
          (train ⟨100, 2, 3, thred, 2⟩ ll).2 < 100) := by
  constructor
  · intro cfg ll s prev h1 h2
    rw [batchStep, if_pos h1, h2]
    dsimp only
    by_cases hc : ll s.loss_test.length - prev ≤ cfg.early_stop_thred
    · rw [if_pos hc]
      by_cases hstop : cfg.early_stop ≤ s.n_drop + 1 ∧ 0 < cfg.early_stop
      · rw [if_pos hstop]
      · rw [if_neg hstop]
    · rw [if_neg hc]
      by_cases hstop : cfg.early_stop ≤ 0 ∧ 0 < cfg.early_stop
      · rw [if_pos hstop]
      · rw [if_neg hstop]
  · intro ll thred h
    have b1 : batchStep ⟨100, 2, 3, thred, 2⟩ ll ⟨0, 0, []⟩ = (⟨1, 0, [ll 0]⟩, false) := by
      simp +decide [batchStep]
    have b2 : batchStep ⟨100, 2, 3, thred, 2⟩ ll ⟨1, 0, [ll 0]⟩ =
        (⟨2, 1, [ll 0, ll 1]⟩, false) := by
      simp +decide [batchStep, h 0]
    have b3 : batchStep ⟨100, 2, 3, thred, 2⟩ ll ⟨2, 1, [ll 0, ll 1]⟩ =
        (⟨3, 2, [ll 0, ll 1, ll 2]⟩, false) := by
      simp +decide [batchStep, h 1]
    have b4 : batchStep ⟨100, 2, 3, thred, 2⟩ ll ⟨3, 2, [ll 0, ll 1, ll 2]⟩ =
        (⟨4, 2, [ll 0, ll 1, ll 2]⟩, false) := by
      simp +decide [batchStep]
    have b5 : batchStep ⟨100, 2, 3, thred, 2⟩ ll ⟨4, 2, [ll 0, ll 1, ll 2]⟩ =
        (⟨4, 3, [ll 0, ll 1, ll 2, ll 3]⟩, true) := by
      simp +decide [batchStep, h 2]
    have ep1 : train_epoch ⟨100, 2, 3, thred, 2⟩ ll ⟨0, 0, []⟩ =
        (⟨2, 1, [ll 0, ll 1]⟩, false) := by
      show runEpoch _ _ 2 _ = _
      rw [show (2 : ℕ) = 1 + 1 from rfl, runEpoch, b1]
      simp only [Bool.false_eq_true, if_false, runEpoch, b2]
    have ep2 : train_epoch ⟨100, 2, 3, thred, 2⟩ ll ⟨2, 1, [ll 0, ll 1]⟩ =
        (⟨4, 2, [ll 0, ll 1, ll 2]⟩, false) := by
      show runEpoch _ _ 2 _ = _
      rw [show (2 : ℕ) = 1 + 1 from rfl, runEpoch, b3]
      simp only [Bool.false_eq_true, if_false, runEpoch, b4]
    have ep3 : train_epoch ⟨100, 2, 3, thred, 2⟩ ll ⟨4, 2, [ll 0, ll 1, ll 2]⟩ =
        (⟨4, 3, [ll 0, ll 1, ll 2, ll 3]⟩, true) := by
      show runEpoch _ _ 2 _ = _
      rw [show (2 : ℕ) = 1 + 1 from rfl, runEpoch, b5]
      simp only [if_true]
    have t3 : runTrain ⟨100, 2, 3, thred, 2⟩ ll 98 ⟨4, 2, [ll 0, ll 1, ll 2]⟩ =
        (⟨4, 3, [ll 0, ll 1, ll 2, ll 3]⟩, 1) := by
      rw [show (98 : ℕ) = 97 + 1 from rfl, runTrain, ep3]
      simp only [if_true]
    have t2 : runTrain ⟨100, 2, 3, thred, 2⟩ ll 99 ⟨2, 1, [ll 0, ll 1]⟩ =
        (⟨4, 3, [ll 0, ll 1, ll 2, ll 3]⟩, 2) := by
      rw [show (99 : ℕ) = 98 + 1 from rfl, runTrain, ep2]
      simp only [Bool.false_eq_true, if_false, t3]
    have t1 : train ⟨100, 2, 3, thred, 2⟩ ll =
        (⟨4, 3, [ll 0, ll 1, ll 2, ll 3]⟩, 3) := by
      rw [train, show (100 : ℕ) = 99 + 1 from rfl, runTrain, brodeInit, ep1]
      simp only [Bool.false_eq_true, if_false, t2]
    rw [t1]
    exact ⟨rfl, by norm_num⟩

/-- Closed witness for `brode_early_stop` at the constant-zero oracle and zero
threshold. -/
theorem brode_early_stop_witness :
    (train ⟨100, 2, 3, 0, 2⟩ (fun _ => 0)).2 = 3 ∧
      (train ⟨100, 2, 3, 0, 2⟩ (fun _ => 0)).2 < 100 :=
  brode_early_stop.2 (fun _ => 0) 0 (fun k => by norm_num)

/-! ## Theorems: solver frame effect and fallback (claims C10, C8) -/

/-- C10: `edmond_chu_liu` mutates its argument in place: after the top-level
call the caller sees `-inf` across row `r` (every edge into the root erased),
and every other row unchanged. -/
theorem edmond_chu_liu_mutates_root_row {W : Type} [LinearOrder W] [Sub W]
    (fuel n : ℕ) (g : Fin n → Fin n → WithBot W) (r : Fin n) (rng : ℕ → ℕ) :
    (∀ j, (edmond_chu_liu fuel n g r rng).2 r j = ⊥) ∧
      (∀ i j, ¬ i = r → (edmond_chu_liu fuel n g r rng).2 i j = g i j) := by
  constructor
  · intro j
    show clearRow g r r j = ⊥
    rw [clearRow, if_pos rfl]
  · intro i j h
    show clearRow g r i j = g i j
    rw [clearRow, if_neg h]

/-- Closed witness for `edmond_chu_liu_mutates_root_row`: the non-root row of
the two-node chain is untouched. -/
theorem edmond_chu_liu_mutates_root_row_witness :
    (edmond_chu_liu 2 2 cexG2 0 (fun _ => 0)).2 1 0 = cexG2 1 0 :=
  (edmond_chu_liu_mutates_root_row 2 2 cexG2 0 (fun _ => 0)).2 1 0 (by decide)

/-- C8 (amended): a row with no finite incoming edge never makes the parent
selection itself fail — such a node `i` is assigned the fallback parent
`(i + draw) mod n` where `draw` is its random draw.  The solver as a whole can
still fail under this precondition: see
`edmond_chu_liu_fallback_can_raise`. -/
theorem parents_fallback {W : Type} [LinearOrder W] [Sub W] {n : ℕ}
    (g1 : Fin n → Fin n → WithBot W) (rng : ℕ → ℕ) (i : Fin n)
    (h : bestParent (g1 i) = none) :
    (parentsFn g1 rng i).val = (i.val + rng (fallbackIdx g1 i)) % n := by
  rw [parentsFn, h]

/-- Closed witness for `parents_fallback`: node 3 of `cexG4` has no incoming
edge after the root row is cleared. -/
theorem parents_fallback_witness :
    (parentsFn (clearRow cexG4 0) cexRng 3).val =
      (3 + cexRng (fallbackIdx (clearRow cexG4 0) 3)) % 4 :=
  parents_fallback (clearRow cexG4 0) cexRng 3 (by decide)

/-- Counterexample to C8 as stated: `cexG4` has a non-root node (node 3) with
no finite incoming edge in the root-cleared graph, yet for the random stream
`cexRng` the call does not return a matrix — the expansion step raises an
uncaught `KeyError` (`v_to_loop` lookup at line 303). -/
theorem edmond_chu_liu_fallback_can_raise :
    bestParent (clearRow cexG4 0 3) = none ∧ ¬ (3 : Fin 4) = 0 ∧
      exceptErr (ecl 4 4 cexG4 0 cexRng) = some PyErr.keyError := by
  decide

/-! ## Theorems: breadth-first cycle detection (`check_loop`) -/

section BfsProofs

variable {n : ℕ}

lemma mem_adjOf (f : Fin n → Fin n) (r p x : Fin n) :
    x ∈ adjOf f r p ↔ (¬ x = r ∧ f x = p) := by
  simp [adjOf, List.mem_filter, List.mem_finRange]

lemma adjOf_nodup (f : Fin n → Fin n) (r p : Fin n) : (adjOf f r p).Nodup :=
  (List.nodup_finRange n).filter _

lemma tb_fold_update (l : List (Fin n)) (tb : Fin n → Option (Fin n)) (ptr x : Fin n) :
    (l.foldl (fun t c => Function.update t c (some ptr)) tb) x =
      if x ∈ l then some ptr else tb x := by
  induction l generalizing tb with
  | nil => simp
  | cons c rest ih =>
    rw [List.foldl_cons, ih]
    by_cases hx : x ∈ rest
    · simp [hx]
    · by_cases hxc : x = c
      · subst hxc
        simp [hx, Function.update_same]
      · simp [hx, hxc, Function.update_noteq hxc]

lemma count_singleton_eq (x y : Fin n) :
    List.count x [y] = if x = y then 1 else 0 := by
  by_cases h : x = y
  · subst h; simp
  · rw [if_neg h, List.count_eq_zero]
    intro hc
    rw [List.mem_singleton] at hc
    exact h hc

lemma bfsInvariant_init (f : Fin n → Fin n) (r o : Fin n) :
    BfsInvariant f r o (bfsInit o) := by
  refine ⟨?_, ?_, ?_, ?_, ?_, ?_, ?_, ?_, ?_, ?_⟩
  · intro x p h
    simp [bfsInit] at h
  · intro y hy
    rcases hy with hy | hy
    · simp [bfsInit] at hy
    · simp [bfsInit] at hy
      exact ⟨0, by simp [hy]⟩
  · intro y hy
    simp [bfsInit] at hy
  · intro y hy
    simp [bfsInit] at hy
    exact Or.inl hy
  · intro x hx
    have : List.count x [o] = 0 := by
      rw [count_singleton_eq]
      simp [hx]
    simp [bfsInit, this]
  · have : List.count o [o] = 1 := by rw [count_singleton_eq]; simp
    simp [bfsInit, this]
  · intro h
    simp [bfsInit] at h
  · intro h
    have : List.count o [o] = 1 := by rw [count_singleton_eq]; simp
    rw [bfsInit] at h
    simp only [this] at h
    omega
  · intro y hy
    simp [bfsInit] at hy
  · intro y hy
    simp [bfsInit] at hy
    exact Or.inl hy

end BfsProofs

section BfsStep

variable {n : ℕ}

lemma checked_update_iff (checked : Fin n → Bool) (ptr y : Fin n) :
    Function.update checked ptr true y = true ↔ (y = ptr ∨ checked y = true) := by
  by_cases h : y = ptr
  · subst h
    simp [Function.update_same]
  · simp [Function.update_noteq h, h]

lemma count_queue_cons (x ptr : Fin n) (rest : List (Fin n)) :
    List.count x (ptr :: rest) = List.count x rest + (if x = ptr then 1 else 0) := by
  by_cases h : x = ptr
  · subst h
    simp [List.count_cons]
  · have hb : (ptr == x) = false := by
      rw [beq_eq_false_iff_ne]
      exact Ne.symm h
    simp [List.count_cons, hb, h]

lemma count_append_adj (f : Fin n → Fin n) (r ptr x : Fin n) (rest : List (Fin n)) :
    List.count x (rest ++ adjOf f r ptr) =
      List.count x rest + (if x ∈ adjOf f r ptr then 1 else 0) := by
  rw [List.count_append]
  congr 1
  by_cases h : x ∈ adjOf f r ptr
  · rw [if_pos h, List.count_eq_one_of_mem (adjOf_nodup f r ptr) h]
  · rw [if_neg h, List.count_eq_zero.2 h]

lemma ite_one_mono {c d : Prop} [Decidable c] [Decidable d] (h : c → d) :
    (if c then (1 : ℕ) else 0) ≤ if d then 1 else 0 := by
  by_cases hc : c
  · rw [if_pos hc, if_pos (h hc)]
  · rw [if_neg hc]
    omega

lemma ite_one_le_one (c : Prop) [Decidable c] : (if c then (1 : ℕ) else 0) ≤ 1 := by
  by_cases hc : c
  · rw [if_pos hc]
  · rw [if_neg hc]
    omega

lemma cond_of_ite_one {c : Prop} [Decidable c] (h : 1 ≤ if c then (1 : ℕ) else 0) : c := by
  by_cases hc : c
  · exact hc
  · rw [if_neg hc] at h
    omega

lemma bfsInvariant_step (f : Fin n → Fin n) (r o : Fin n) (s : BfsState n)
    (ptr : Fin n) (rest : List (Fin n))
    (hinv : BfsInvariant f r o s) (hq : s.queue = ptr :: rest)
    (hc : s.checked ptr = false) :
    BfsInvariant f r o
      ⟨rest ++ adjOf f r ptr,
       Function.update s.checked ptr true,
       (adjOf f r ptr).foldl (fun t c => Function.update t c (some ptr)) s.tb⟩ := by
  obtain ⟨hA, hV, hW, hQtb, hY, hY2, hW3, hOtb, hZ, hQ⟩ := hinv
  have hptrq : ptr ∈ s.queue := by rw [hq]; exact List.mem_cons_self _ _
  have htb : ∀ x, ((adjOf f r ptr).foldl (fun t c => Function.update t c (some ptr)) s.tb) x
      = if x ∈ adjOf f r ptr then some ptr else s.tb x := fun x => tb_fold_update _ _ _ _
  have hcq : ∀ x, List.count x s.queue = List.count x rest + (if x = ptr then 1 else 0) := by
    intro x
    rw [hq]
    exact count_queue_cons x ptr rest
  have hchkmono : ∀ y, s.checked y = true → Function.update s.checked ptr true y = true := by
    intro y hy
    rw [checked_update_iff]
    exact Or.inr hy
  have hitemono : ∀ x : Fin n,
      (if ¬ x = r ∧ s.checked (f x) = true then (1 : ℕ) else 0) ≤
        (if ¬ x = r ∧ Function.update s.checked ptr true (f x) = true then 1 else 0) :=
    fun x => ite_one_mono (fun hh => ⟨hh.1, hchkmono _ hh.2⟩)
  refine ⟨?_, ?_, ?_, ?_, ?_, ?_, ?_, ?_, ?_, ?_⟩
  · -- traceback entries agree with f, have non-root keys and checked values
    intro x p hp
    dsimp only at hp ⊢
    rw [htb] at hp
    by_cases hx : x ∈ adjOf f r ptr
    · rw [if_pos hx, Option.some.injEq] at hp
      obtain ⟨hxr, hfx⟩ := (mem_adjOf f r ptr x).1 hx
      subst hp
      exact ⟨hfx.symm, hxr, by rw [checked_update_iff]; exact Or.inl rfl⟩
    · rw [if_neg hx] at hp
      obtain ⟨h1, h2, h3⟩ := hA x p hp
      exact ⟨h1, h2, hchkmono _ h3⟩
  · -- everything seen iterates to the origin
    intro y hy
    dsimp only at hy
    have hsplit : (y = ptr ∨ s.checked y = true) ∨ (y ∈ rest ∨ y ∈ adjOf f r ptr) := by
      rcases hy with hy | hy
      · exact Or.inl ((checked_update_iff _ _ _).1 hy)
      · exact Or.inr (List.mem_append.1 hy)
    rcases hsplit with (hy | hy) | (hy | hy)
    · rw [hy]
      exact hV ptr (Or.inr hptrq)
    · exact hV y (Or.inl hy)
    · exact hV y (Or.inr (by rw [hq]; exact List.mem_cons_of_mem _ hy))
    · obtain ⟨hyr, hfy⟩ := (mem_adjOf f r ptr y).1 hy
      obtain ⟨k, hk⟩ := hV ptr (Or.inr hptrq)
      exact ⟨k + 1, by rw [Function.iterate_succ_apply, hfy, hk]⟩
  · -- checked nodes have their traceback set
    intro y hy
    dsimp only at hy ⊢
    rw [checked_update_iff] at hy
    rw [htb]
    by_cases hmem : y ∈ adjOf f r ptr
    · rw [if_pos hmem]
      obtain ⟨hyr, hfy⟩ := (mem_adjOf f r ptr y).1 hmem
      exact Or.inr (by rw [hfy])
    · rw [if_neg hmem]
      rcases hy with hy | hy
      · rw [hy]
        exact hQtb ptr hptrq
      · exact hW y hy
  · -- queued nodes have their traceback set
    intro y hy
    dsimp only at hy ⊢
    rw [htb]
    by_cases hmem : y ∈ adjOf f r ptr
    · rw [if_pos hmem]
      obtain ⟨hyr, hfy⟩ := (mem_adjOf f r ptr y).1 hmem
      exact Or.inr (by rw [hfy])
    · rw [if_neg hmem]
      rcases List.mem_append.1 hy with hy | hy
      · exact hQtb y (by rw [hq]; exact List.mem_cons_of_mem _ hy)
      · exact absurd hy hmem
  · -- counting bound for non-origin nodes
    intro x hxo
    have hYx := hY x hxo
    rw [hcq x] at hYx
    dsimp only
    show List.count x (rest ++ adjOf f r ptr) + _ ≤ _
    rw [count_append_adj]
    by_cases hxp : x = ptr
    · subst hxp
      rw [if_pos rfl, hc] at hYx
      simp only [Bool.false_eq_true, if_false, add_zero] at hYx
      have hcond : ¬ x = r ∧ s.checked (f x) = true :=
        cond_of_ite_one (le_trans (by omega) hYx)
      have hrest : List.count x rest = 0 := by
        have := ite_one_le_one (¬ x = r ∧ s.checked (f x) = true)
        omega
      have hnadj : ¬ x ∈ adjOf f r x := by
        intro hmem
        obtain ⟨_, hfxx⟩ := (mem_adjOf f r x x).1 hmem
        rw [hfxx, hc] at hcond
        exact Bool.false_ne_true hcond.2
      rw [hrest, if_neg hnadj]
      have h1 : Function.update s.checked x true x = true := by
        rw [checked_update_iff]
        exact Or.inl rfl
      rw [h1]
      have h2 : ¬ x = r ∧ Function.update s.checked x true (f x) = true :=
        And.intro hcond.1 (hchkmono _ hcond.2)
      rw [if_pos h2]
      simp
    · by_cases hmem : x ∈ adjOf f r ptr
      · obtain ⟨hxr, hfx⟩ := (mem_adjOf f r ptr x).1 hmem
        have hite0 : (if ¬ x = r ∧ s.checked (f x) = true then (1 : ℕ) else 0) = 0 := by
          rw [if_neg]
          intro hcc
          rw [hfx, hc] at hcc
          exact Bool.false_ne_true hcc.2
        rw [hite0, if_neg hxp] at hYx
        have hrest : List.count x rest = 0 := by omega
        have hchkx : Function.update s.checked ptr true x = s.checked x :=
          Function.update_noteq hxp _ _
        have hchkx0 : s.checked x = false := by
          by_cases hb : s.checked x = true
          · rw [if_pos hb] at hYx
            omega
          · exact Bool.eq_false_iff.2 hb
        rw [hrest, if_pos hmem, hchkx, hchkx0]
        have hcf : Function.update s.checked ptr true (f x) = true := by
          rw [hfx]
          rw [checked_update_iff]
          exact Or.inl rfl
        rw [if_pos (And.intro hxr hcf)]
        simp
      · have hchkx : Function.update s.checked ptr true x = s.checked x :=
          Function.update_noteq hxp _ _
        rw [if_neg hxp] at hYx
        rw [if_neg hmem, hchkx]
        calc List.count x rest + 0 + (if s.checked x = true then 1 else 0)
            ≤ (if ¬ x = r ∧ s.checked (f x) = true then 1 else 0) := by omega
          _ ≤ _ := hitemono x
  · -- counting bound for the origin
    have hY2q := hY2
    rw [hcq o] at hY2q
    dsimp only
    show List.count o (rest ++ adjOf f r ptr) + _ ≤ _
    rw [count_append_adj]
    by_cases hop : o = ptr
    · subst hop
      rw [if_pos rfl, hc] at hY2q
      simp only [Bool.false_eq_true, if_false, add_zero] at hY2q
      have h1 : Function.update s.checked o true o = true := by
        rw [checked_update_iff]
        exact Or.inl rfl
      rw [h1, if_pos rfl]
      by_cases hmem : o ∈ adjOf f r o
      · obtain ⟨hor, hfo⟩ := (mem_adjOf f r o o).1 hmem
        have hite0 : (if ¬ o = r ∧ s.checked (f o) = true then (1 : ℕ) else 0) = 0 := by
          rw [if_neg]
          intro hcc
          rw [hfo, hc] at hcc
          exact Bool.false_ne_true hcc.2
        rw [hite0] at hY2q
        have hrest : List.count o rest = 0 := by omega
        have hcf : Function.update s.checked o true (f o) = true := by
          rw [hfo]
          rw [checked_update_iff]
          exact Or.inl rfl
        rw [hrest, if_pos hmem, if_pos (And.intro hor hcf)]
      · rw [if_neg hmem]
        calc List.count o rest + 0 + 1
            ≤ 1 + (if ¬ o = r ∧ s.checked (f o) = true then 1 else 0) := by omega
          _ ≤ _ := by
              have := hitemono o
              omega
    · rw [if_neg hop] at hY2q
      have hchko : Function.update s.checked ptr true o = s.checked o :=
        Function.update_noteq hop _ _
      rw [hchko]
      by_cases hmem : o ∈ adjOf f r ptr
      · obtain ⟨hor, hfo⟩ := (mem_adjOf f r ptr o).1 hmem
        have hite0 : (if ¬ o = r ∧ s.checked (f o) = true then (1 : ℕ) else 0) = 0 := by
          rw [if_neg]
          intro hcc
          rw [hfo, hc] at hcc
          exact Bool.false_ne_true hcc.2
        rw [hite0] at hY2q
        have hcf : Function.update s.checked ptr true (f o) = true := by
          rw [hfo]
          rw [checked_update_iff]
          exact Or.inl rfl
        rw [if_pos hmem, if_pos (And.intro hor hcf)]
        omega
      · rw [if_neg hmem]
        calc List.count o rest + 0 + (if s.checked o = true then 1 else 0)
            ≤ 1 + (if ¬ o = r ∧ s.checked (f o) = true then 1 else 0) := by omega
          _ ≤ _ := by
              have := hitemono o
              omega
  · -- checked origin in the queue has traceback set
    intro hcho hoq
    dsimp only at hcho hoq ⊢
    rw [htb]
    by_cases hmem : o ∈ adjOf f r ptr
    · rw [if_pos hmem]
      obtain ⟨hor, hfo⟩ := (mem_adjOf f r ptr o).1 hmem
      rw [hfo]
    · rw [if_neg hmem]
      have hor : o ∈ rest := by
        rcases List.mem_append.1 hoq with h | h
        · exact h
        · exact absurd h hmem
      rw [checked_update_iff] at hcho
      rcases hcho with hcho | hcho
      · subst hcho
        have : 2 ≤ List.count o s.queue := by
          rw [hcq o, if_pos rfl]
          have : 1 ≤ List.count o rest := List.count_pos_iff.2 hor
          omega
        exact hOtb this
      · exact hW3 hcho (by rw [hq]; exact List.mem_cons_of_mem _ hor)
  · -- double-counted origin has traceback set
    intro h2
    dsimp only at h2 ⊢
    rw [htb]
    by_cases hmem : o ∈ adjOf f r ptr
    · rw [if_pos hmem]
      obtain ⟨hor, hfo⟩ := (mem_adjOf f r ptr o).1 hmem
      rw [hfo]
    · rw [if_neg hmem]
      rw [count_append_adj, if_neg hmem, add_zero] at h2
      apply hOtb
      rw [hcq o]
      omega
  · -- checked nodes are the origin or non-root
    intro y hy
    dsimp only at hy
    rw [checked_update_iff] at hy
    rcases hy with hy | hy
    · subst hy
      exact hQ y hptrq
    · exact hZ y hy
  · -- queued nodes are the origin or non-root
    intro y hy
    dsimp only at hy
    rcases List.mem_append.1 hy with hy | hy
    · exact hQ y (by rw [hq]; exact List.mem_cons_of_mem _ hy)
    · exact Or.inr ((mem_adjOf f r ptr y).1 hy).1

end BfsStep

section BfsDetect

variable {n : ℕ}

lemma bfs_detection (f : Fin n → Fin n) (r o : Fin n) (s : BfsState n)
    (hinv : BfsInvariant f r o s) (ptr : Fin n) (rest : List (Fin n))
    (hq : s.queue = ptr :: rest) (hcp : s.checked ptr = true) :
    ptr = o ∧ ¬ o = r ∧ s.tb o = some (f o) ∧ s.checked (f o) = true ∧
      ∃ k, f^[k + 1] o = o := by
  obtain ⟨hA, hV, hW, hQtb, hY, hY2, hW3, hOtb, hZ, hQ⟩ := hinv
  have hptrq : ptr ∈ s.queue := by rw [hq]; exact List.mem_cons_self _ _
  have hcnt : 1 ≤ List.count ptr s.queue := List.count_pos_iff.2 hptrq
  have hpo : ptr = o := by
    by_contra hne
    have hy := hY ptr hne
    rw [if_pos hcp] at hy
    have := ite_one_le_one (¬ ptr = r ∧ s.checked (f ptr) = true)
    omega
  subst hpo
  have hcond : ¬ ptr = r ∧ s.checked (f ptr) = true := by
    apply cond_of_ite_one
    rw [if_pos hcp] at hY2
    omega
  refine ⟨rfl, hcond.1, hW3 hcp hptrq, hcond.2, ?_⟩
  obtain ⟨k, hk⟩ := hV (f ptr) (Or.inl hcond.2)
  exact ⟨k, by rw [Function.iterate_succ_apply, hk]⟩

lemma iterate_mod_period (f : Fin n → Fin n) (o : Fin n) (m : ℕ) (hm : 0 < m)
    (hcyc : f^[m] o = o) : ∀ j, f^[j] o = f^[j % m] o := by
  intro j
  induction j using Nat.strong_induction_on with
  | _ j ih =>
    by_cases hj : j < m
    · rw [Nat.mod_eq_of_lt hj]
    · have h1 : f^[j] o = f^[j - m] o := by
        conv_lhs => rw [show j = (j - m) + m by omega]
        rw [Function.iterate_add_apply, hcyc]
      have h2 : j % m = (j - m) % m := by
        conv_lhs => rw [show j = (j - m) + m by omega]
        exact Nat.add_mod_right _ _
      rw [h1, ih (j - m) (by omega), h2]

lemma getLoopWalk_cycle_aux (f : Fin n → Fin n) (tb : Fin n → Option (Fin n))
    (o : Fin n) (m : ℕ) (hcyc : f^[m] o = o)
    (hmin : ∀ j, 0 < j → j < m → ¬ f^[j] o = o)
    (htb : ∀ j, j < m → tb (f^[j] o) = some (f^[j + 1] o)) :
    ∀ (fuel i : ℕ) (acc : List (Fin n)), i < m → m - i ≤ fuel →
      getLoopWalk tb o fuel (f^[i] o) acc =
        acc ++ (List.range (m - i)).map (fun j => f^[i + j + 1] o) := by
  intro fuel
  induction fuel with
  | zero =>
    intro i acc hi hf
    omega
  | succ fuel ih =>
    intro i acc hi hf
    rw [getLoopWalk, htb i hi]
    dsimp only
    by_cases hio : f^[i + 1] o = o
    · have him : i + 1 = m := by
        by_contra hne
        exact hmin (i + 1) (by omega) (by omega) hio
      rw [if_pos hio]
      have hmi : m - i = 1 := by omega
      rw [hmi]
      have hone : (List.range 1).map (fun j => f^[i + j + 1] o) = [f^[i + 1] o] := by
        rw [show List.range 1 = [0] from rfl, List.map_cons, List.map_nil]
      rw [hone, hio]
    · rw [if_neg hio]
      have hi1 : i + 1 < m := by
        by_contra hne
        have hieq : i + 1 = m := by omega
        rw [hieq, hcyc] at hio
        exact hio rfl
      have hrec := ih (i + 1) (acc ++ [f^[i + 1] o]) hi1 (by omega)
      rw [hrec, List.append_assoc]
      have hlist : [f^[i + 1] o] ++ (List.range (m - (i + 1))).map (fun j => f^[i + 1 + j + 1] o)
          = (List.range (m - i)).map (fun j => f^[i + j + 1] o) := by
        have hsp : m - i = (m - (i + 1)) + 1 := by omega
        rw [hsp, List.range_succ_eq_map, List.map_cons, List.map_map, List.singleton_append]
        have h0 : f^[i + 0 + 1] o = f^[i + 1] o := by norm_num
        rw [h0]
        congr 1
        apply List.map_congr_left
        intro j hj
        simp only [Function.comp]
        have harith : i + Nat.succ j + 1 = i + 1 + j + 1 := by omega
        rw [harith]
      rw [hlist]

end BfsDetect

section BfsSound

variable {n : ℕ}

lemma bfs_cycle_chain (f : Fin n → Fin n) (r o : Fin n) (s : BfsState n)
    (hinv : BfsInvariant f r o s) (hco : s.checked o = true)
    (htbo : s.tb o = some (f o)) (m : ℕ) (hcyc : f^[m] o = o)
    (hmin : ∀ j, 0 < j → j < m → ¬ f^[j] o = o) :
    ∀ j, j < m → s.tb (f^[j] o) = some (f^[j + 1] o) ∧ s.checked (f^[j] o) = true := by
  obtain ⟨hA, hV, hW, hQtb, hY, hY2, hW3, hOtb, hZ, hQ⟩ := hinv
  intro j
  induction j with
  | zero =>
    intro _
    rw [Function.iterate_zero_apply]
    refine ⟨?_, hco⟩
    rw [htbo]
    norm_num
  | succ j ih =>
    intro hj
    obtain ⟨htbj, hchkj⟩ := ih (by omega)
    obtain ⟨hval, _, hchk1⟩ := hA _ _ htbj
    have hne : ¬ f^[j + 1] o = o := hmin (j + 1) (by omega) hj
    rcases hW _ hchk1 with he | he
    · exact absurd he hne
    · refine ⟨?_, hchk1⟩
      rw [he]
      exact congrArg some (Function.iterate_succ_apply' f (j + 1) o).symm

lemma cycle_list_nodup (f : Fin n → Fin n) (o : Fin n) (m : ℕ)
    (hcyc : f^[m] o = o) (hmin : ∀ j, 0 < j → j < m → ¬ f^[j] o = o) :
    ((List.range m).map (fun j => f^[j + 1] o)).Nodup := by
  have key : ∀ a b, a < m → b < m → a < b → f^[a + 1] o = f^[b + 1] o → False := by
    intro a b ha hb hab he
    have hiter : f^[m - (b + 1) + (a + 1)] o = o := by
      rw [Function.iterate_add_apply, he, ← Function.iterate_add_apply,
        show m - (b + 1) + (b + 1) = m by omega, hcyc]
    exact hmin (m - (b + 1) + (a + 1)) (by omega) (by omega) hiter
  apply List.Nodup.map_on
  · intro a ha b hb heq
    rw [List.mem_range] at ha hb
    rcases lt_trichotomy a b with h | h | h
    · exact absurd (key a b ha hb h heq) (fun hf => hf)
    · exact h
    · exact absurd (key b a hb ha h heq.symm) (fun hf => hf)
  · exact List.nodup_range m

lemma bfsAux_sound (f : Fin n → Fin n) (r o : Fin n) :
    ∀ (fuel : ℕ) (s : BfsState n) (L out : List (Fin n)),
      BfsInvariant f r o s →
      bfsAux (adjOf f r) fuel s = some (L, out) →
      ∃ m, 2 ≤ m ∧ m ≤ n ∧ f^[m] o = o ∧ (∀ j, 0 < j → j < m → ¬ f^[j] o = o) ∧
        (∀ j, ¬ f^[j] o = r) ∧
        L = ((List.range m).map (fun j => f^[j + 1] o)).reverse ∧
        out = (List.finRange n).filter
          (fun i => ¬ i ∈ (List.range m).map (fun j => f^[j + 1] o)) := by
  intro fuel
  induction fuel with
  | zero =>
    intro s L out hinv h
    rw [bfsAux] at h
    exact absurd h (by simp)
  | succ fuel ih =>
    intro s L out hinv h
    rw [bfsAux] at h
    rcases hq : s.queue with _ | ⟨ptr, rest⟩
    · rw [hq] at h
      exact absurd h (by simp)
    · rw [hq] at h
      dsimp only at h
      by_cases hcp : s.checked ptr = true
      · rw [if_pos hcp] at h
        obtain ⟨hpo, hor, htbo, hcfo, k, hk⟩ :=
          bfs_detection f r o s hinv ptr rest hq hcp
        subst hpo
        -- the minimal positive period of the origin
        have hex : ∃ mm, 0 < mm ∧ f^[mm] ptr = ptr := ⟨k + 1, by omega, hk⟩
        set m := Nat.find hex with hmdef
        obtain ⟨hmpos, hmcyc⟩ := Nat.find_spec hex
        have hmin : ∀ j, 0 < j → j < m → ¬ f^[j] ptr = ptr := by
          intro j hj1 hj2 hje
          exact Nat.find_min hex hj2 ⟨hj1, hje⟩
        have hchain := bfs_cycle_chain f r ptr s hinv hcp htbo m hmcyc hmin
        have hnd := cycle_list_nodup f ptr m hmcyc hmin
        have hmn : m ≤ n := by
          have := List.Nodup.length_le_card hnd
          rwa [List.length_map, List.length_range, Fintype.card_fin] at this
        have hwalk := getLoopWalk_cycle_aux f s.tb ptr m hmcyc hmin
          (fun j hj => (hchain j hj).1) n 0 [] hmpos (by omega)
        rw [Function.iterate_zero_apply] at hwalk
        have hgl : get_loop s.tb ptr =
            (((List.range m).map (fun j => f^[j + 1] ptr)).reverse,
             (List.finRange n).filter
               (fun i => ¬ i ∈ (List.range m).map (fun j => f^[j + 1] ptr))) := by
          rw [get_loop]
          rw [show m - 0 = m from rfl] at hwalk
          rw [hwalk]
          simp only [List.nil_append]
          have hfun : (fun j => f^[0 + j + 1] ptr) = (fun j => f^[j + 1] ptr) := by
            funext j
            rw [Nat.zero_add]
          rw [hfun]
        rw [hgl] at h
        dsimp only at h
        by_cases hm1 : m = 1
        · rw [if_pos (by rw [List.length_reverse, List.length_map, List.length_range, hm1])] at h
          exact absurd h (by simp)
        · rw [if_neg (by rw [List.length_reverse, List.length_map, List.length_range]; exact hm1)] at h
          rw [Option.some.injEq, Prod.mk.injEq] at h
          have hnr : ∀ j, ¬ f^[j] ptr = r := by
            intro j hje
            rw [iterate_mod_period f ptr m hmpos hmcyc j] at hje
            rcases Nat.eq_zero_or_pos (j % m) with hz | hpos
            · rw [hz, Function.iterate_zero_apply] at hje
              exact hor (hje)
            · have hjm : j % m < m := Nat.mod_lt _ hmpos
              have hchk := (hchain (j % m) hjm).2
              rcases (hinv.2.2.2.2.2.2.2.2.1) _ hchk with he | he
              · rw [hje] at he
                exact hor he.symm
              · exact he hje
          exact ⟨m, by omega, hmn, hmcyc, hmin, hnr, h.1.symm, h.2.symm⟩
      · have hcf : s.checked ptr = false := by
          cases hb : s.checked ptr
          · rfl
          · exact absurd hb hcp
        rw [if_neg hcp] at h
        exact ih _ L out (bfsInvariant_step f r o s ptr rest hinv hq hcf) h

end BfsSound

section BfsComplete

variable {n : ℕ}

lemma unchecked_update (checked : Fin n → Bool) (ptr : Fin n) (h : checked ptr = false) :
    (Finset.univ.filter (fun x => Function.update checked ptr true x = false)).card + 1 =
      (Finset.univ.filter (fun x => checked x = false)).card := by
  have hset : (Finset.univ.filter (fun x => Function.update checked ptr true x = false)) =
      (Finset.univ.filter (fun x => checked x = false)).erase ptr := by
    ext x
    simp only [Finset.mem_filter, Finset.mem_univ, true_and, Finset.mem_erase]
    by_cases hx : x = ptr
    · subst hx
      simp [Function.update_same]
    · simp [Function.update_noteq hx, hx]
  rw [hset, Finset.card_erase_add_one]
  simp only [Finset.mem_filter, Finset.mem_univ, true_and]
  exact h

lemma bfsAux_complete (f : Fin n → Fin n) (r o : Fin n) (m : ℕ)
    (hcy : IsMinCycle f r o m) :
    ∀ (fuel : ℕ) (s : BfsState n), BfsInvariant f r o s →
      (∃ j, f^[j] o ∈ s.queue) → uncheckedCard s + 1 ≤ fuel →
      ¬ bfsAux (adjOf f r) fuel s = none := by
  obtain ⟨hm2, hcyc, hmin, hnr⟩ := hcy
  intro fuel
  induction fuel with
  | zero =>
    intro s _ _ hle
    omega
  | succ fuel ih =>
    intro s hinv hqcyc hle h
    rw [bfsAux] at h
    obtain ⟨j, hj⟩ := hqcyc
    rcases hq : s.queue with _ | ⟨ptr, rest⟩
    · rw [hq] at hj
      exact absurd hj (List.not_mem_nil _)
    · rw [hq] at h
      dsimp only at h
      by_cases hcp : s.checked ptr = true
      · rw [if_pos hcp] at h
        obtain ⟨hpo, hor, htbo, hcfo, k, hk⟩ := bfs_detection f r o s hinv ptr rest hq hcp
        subst hpo
        have hchain := bfs_cycle_chain f r ptr s hinv hcp htbo m hcyc hmin
        have hnd := cycle_list_nodup f ptr m hcyc hmin
        have hmn : m ≤ n := by
          have := List.Nodup.length_le_card hnd
          rwa [List.length_map, List.length_range, Fintype.card_fin] at this
        have hwalk := getLoopWalk_cycle_aux f s.tb ptr m hcyc hmin
          (fun jj hjj => (hchain jj hjj).1) n 0 [] (by omega) (by omega)
        rw [Function.iterate_zero_apply] at hwalk
        have hgl : get_loop s.tb ptr =
            (((List.range m).map (fun jj => f^[jj + 1] ptr)).reverse,
             (List.finRange n).filter
               (fun i => ¬ i ∈ (List.range m).map (fun jj => f^[jj + 1] ptr))) := by
          rw [get_loop]
          rw [show m - 0 = m from rfl] at hwalk
          rw [hwalk]
          simp only [List.nil_append]
          have hfun : (fun jj => f^[0 + jj + 1] ptr) = (fun jj => f^[jj + 1] ptr) := by
            funext jj
            rw [Nat.zero_add]
          rw [hfun]
        rw [hgl] at h
        dsimp only at h
        rw [if_neg (by
          rw [List.length_reverse, List.length_map, List.length_range]
          omega)] at h
        exact absurd h (by simp)
      · have hcf : s.checked ptr = false := by
          cases hb : s.checked ptr
          · rfl
          · exact absurd hb hcp
        rw [if_neg hcp] at h
        refine ih ⟨rest ++ adjOf f r ptr,
            Function.update s.checked ptr true,
            (adjOf f r ptr).foldl (fun t c => Function.update t c (some ptr)) s.tb⟩
          (bfsInvariant_step f r o s ptr rest hinv hq hcf) ?_ ?_ h
        · rw [hq] at hj
          rcases List.mem_cons.1 hj with hjp | hjr
          · refine ⟨j + (m - 1), ?_⟩
            have hsucc : j + (m - 1) + 1 = j + m := by omega
            have hnext : f^[j + (m - 1) + 1] o = f^[j] o := by
              rw [hsucc, Function.iterate_add_apply, hcyc]
            apply List.mem_append_right
            rw [mem_adjOf]
            constructor
            · exact hnr (j + (m - 1))
            · rw [← Function.iterate_succ_apply' f (j + (m - 1)) o, hnext, hjp]
          · exact ⟨j, List.mem_append_left _ hjr⟩
        · have := unchecked_update s.checked ptr hcf
          show (Finset.univ.filter (fun x => Function.update s.checked ptr true x = false)).card
              + 1 ≤ fuel
          have hcardle : uncheckedCard s ≤ fuel := by omega
          rw [uncheckedCard] at hcardle
          omega

lemma checkLoopGo_spec (f : Fin n → Fin n) (r : Fin n) :
    ∀ origins : List (Fin n),
      (∃ o m, IsMinCycle f r o m ∧ m ≤ n ∧
        checkLoopGo (adjOf f r) origins =
          ((cycleList f o m).reverse,
           (List.finRange n).filter (fun i => ¬ i ∈ cycleList f o m))) ∨
      (checkLoopGo (adjOf f r) origins = ([], List.finRange n) ∧
        ∀ o ∈ origins, ∀ m, ¬ IsMinCycle f r o m)
  | [] => Or.inr ⟨rfl, fun o ho => absurd ho (List.not_mem_nil _)⟩
  | o1 :: rest => by
    rcases hb : bfsAux (adjOf f r) (n + 1) ⟨[o1], fun _ => false, fun _ => none⟩
      with _ | lo
    · rcases checkLoopGo_spec f r rest with ⟨o, m, hcy, hmn, heq⟩ | ⟨heq, hnone⟩
      · refine Or.inl ⟨o, m, hcy, hmn, ?_⟩
        rw [checkLoopGo, hb]
        exact heq
      · refine Or.inr ⟨?_, ?_⟩
        · rw [checkLoopGo, hb]
          exact heq
        · intro o ho m
          rcases List.mem_cons.1 ho with ho1 | hor
          · subst ho1
            intro hcy
            refine bfsAux_complete f r o m hcy (n + 1)
              ⟨[o], fun _ => false, fun _ => none⟩
              (bfsInvariant_init f r o) ⟨0, ?_⟩ ?_ hb
            · rw [Function.iterate_zero_apply]
              exact List.mem_singleton_self o
            · have : uncheckedCard (bfsInit o) = n := by
                rw [uncheckedCard]
                simp [bfsInit]
              rw [show (⟨[o], fun _ => false, fun _ => none⟩ : BfsState n) = bfsInit o
                from rfl, this]
          · exact hnone o hor m
    · obtain ⟨L, out⟩ := lo
      obtain ⟨m, hm2, hmn, hcyc, hmin, hnrr, hL, hout⟩ :=
        bfsAux_sound f r o1 (n + 1) ⟨[o1], fun _ => false, fun _ => none⟩ L out
          (bfsInvariant_init f r o1) hb
      refine Or.inl ⟨o1, m, ⟨hm2, hcyc, hmin, hnrr⟩, hmn, ?_⟩
      rw [checkLoopGo, hb]
      dsimp only
      rw [hL, hout, cycleList]

lemma check_loop_spec (f : Fin n → Fin n) (r : Fin n) :
    (∃ o m, IsMinCycle f r o m ∧ m ≤ n ∧
      check_loop (adjOf f r) =
        ((cycleList f o m).reverse,
         (List.finRange n).filter (fun i => ¬ i ∈ cycleList f o m))) ∨
    (check_loop (adjOf f r) = ([], List.finRange n) ∧
      ∀ o m, ¬ IsMinCycle f r o m) := by
  rcases checkLoopGo_spec f r (List.finRange n) with h | ⟨heq, hnone⟩
  · exact Or.inl h
  · exact Or.inr ⟨heq, fun o m => hnone o (List.mem_finRange o) m⟩

end BfsComplete

/-! ## Theorems: solver determinism on the happy path (claim C4) -/

section Determinism

variable {W : Type} [LinearOrder W] [Sub W]

lemma parentsFn_congr {n : ℕ} (g1 : Fin n → Fin n → WithBot W) (rng1 rng2 : ℕ → ℕ)
    (i : Fin n) (h : ¬ bestParent (g1 i) = none) :
    parentsFn g1 rng1 i = parentsFn g1 rng2 i := by
  rcases hb : bestParent (g1 i) with _ | p
  · exact absurd hb h
  · rw [parentsFn, parentsFn, hb]

lemma adjOf_congr {n : ℕ} (par1 par2 : Fin n → Fin n) (r : Fin n)
    (h : ∀ i, ¬ i = r → par1 i = par2 i) : adjOf par1 r = adjOf par2 r := by
  funext p
  rw [adjOf, adjOf]
  apply List.filter_congr
  intro x _
  by_cases hx : x = r
  · simp [hx]
  · simp [hx, h x hx]

lemma tlStep_congr {n : ℕ} (graph : Fin n → Fin n → WithBot W)
    (par1 par2 : Fin n → Fin n) (x : Fin n) (h : par1 x = par2 x) :
    tlStep graph par1 x = tlStep graph par2 x := by
  funext acc y
  rw [tlStep, tlStep, h]

lemma toLoopDicts_congr {n : ℕ} (graph : Fin n → Fin n → WithBot W)
    (par1 par2 : Fin n → Fin n) (loop v_outside : List (Fin n))
    (h : ∀ x ∈ loop, par1 x = par2 x) :
    toLoopDicts graph par1 loop v_outside = toLoopDicts graph par2 loop v_outside := by
  rw [toLoopDicts, toLoopDicts]
  apply List.foldl_ext
  intro acc x hx
  rw [tlStep_congr graph par1 par2 x (h x hx)]

lemma loop_avoids_root {n : ℕ} (f : Fin n → Fin n) (r : Fin n) :
    ∀ x ∈ (check_loop (adjOf f r)).1, ¬ x = r := by
  rcases check_loop_spec f r with ⟨o, m, hcy, _, heq⟩ | ⟨heq, _⟩
  · intro x hx
    rw [heq] at hx
    dsimp only at hx
    rw [List.mem_reverse, cycleList, List.mem_map] at hx
    obtain ⟨j, _, hj⟩ := hx
    rw [← hj]
    exact hcy.2.2.2 (j + 1)
  · intro x hx
    rw [heq] at hx
    exact absurd hx (List.not_mem_nil _)

lemma merge_nodes_congr {n : ℕ} (m : ℕ) (graph : Fin n → Fin n → WithBot W)
    (par1 par2 : Fin n → Fin n) (loop v_outside : List (Fin n))
    (h : ∀ x ∈ loop, par1 x = par2 x) :
    merge_nodes m graph par1 loop v_outside = merge_nodes m graph par2 loop v_outside := by
  rw [merge_nodes, merge_nodes, toLoopDicts_congr graph par1 par2 loop v_outside h]

lemma happyPathBody_congr {n : ℕ} (g1 : Fin n → Fin n → WithBot W)
    (par1 par2 : Fin n → Fin n) (r : Fin n) (lo : List (Fin n) × List (Fin n))
    (recur : (m : ℕ) → (Fin m → Fin m → WithBot W) → Fin m → Bool)
    (h : ∀ x ∈ lo.1, par1 x = par2 x) :
    happyPathBody n g1 par1 r lo recur = happyPathBody n g1 par2 r lo recur := by
  rw [happyPathBody, happyPathBody, merge_nodes_congr _ _ par1 par2 _ _ h]

lemma eclBody_congr {n : ℕ} (g1 : Fin n → Fin n → WithBot W)
    (par1 par2 : Fin n → Fin n) (r : Fin n) (lo : List (Fin n) × List (Fin n))
    (recur1 recur2 : (m : ℕ) → (Fin m → Fin m → WithBot W) → Fin m →
      Except PyErr (Fin m → Fin m → ℕ))
    (hpar : ∀ i, ¬ i = r → par1 i = par2 i)
    (hlor : ∀ x ∈ lo.1, ¬ x = r)
    (hrec : ∀ md : MergeData n (n - lo.1.length + 1) W, 2 ≤ lo.1.length →
      merge_nodes (n - lo.1.length + 1) g1 par1 lo.1 lo.2 = Except.ok md →
      recur1 (n - lo.1.length + 1) md.graphNew (md.vmap r) =
        recur2 (n - lo.1.length + 1) md.graphNew (md.vmap r)) :
    eclBody n g1 par1 r lo recur1 = eclBody n g1 par2 r lo recur2 := by
  rw [eclBody, eclBody]
  by_cases hl : 2 ≤ lo.1.length
  · rw [dif_pos hl, dif_pos hl]
    rw [merge_nodes_congr _ _ par2 par1 _ _ (fun x hx => (hpar x (hlor x hx)).symm)]
    rcases hm : merge_nodes (n - lo.1.length + 1) g1 par1 lo.1 lo.2 with e | md
    · rfl
    · dsimp only
      rw [hrec md hl hm]
  · rw [dif_neg hl, dif_neg hl]
    refine congrArg Except.ok (funext fun i => funext fun j => ?_)
    by_cases hir : i = r
    · rw [if_pos hir, if_pos hir]
    · rw [if_neg hir, if_neg hir, hpar i hir]

lemma ecl_deterministic :
    ∀ (fuel n : ℕ) (g : Fin n → Fin n → WithBot W) (r : Fin n) (rng1 rng2 : ℕ → ℕ),
      happyPath fuel n g r = true →
      ecl fuel n g r rng1 = ecl fuel n g r rng2 := by
  intro fuel
  induction fuel with
  | zero =>
    intro n g r rng1 rng2 hh
    rw [happyPath] at hh
    exact absurd hh (by simp)
  | succ fuel ih =>
    intro n g r rng1 rng2 hh
    simp only [happyPath, Bool.and_eq_true, decide_eq_true_eq] at hh
    obtain ⟨hbp, hh2⟩ := hh
    have hpc : ∀ (rng rng' : ℕ → ℕ) (i : Fin n), ¬ i = r →
        parentsFn (clearRow g r) rng i = parentsFn (clearRow g r) rng' i :=
      fun rng rng' i hi => parentsFn_congr _ _ _ _ (hbp i hi)
    have hadj : ∀ rng rng' : ℕ → ℕ,
        adjOf (parentsFn (clearRow g r) rng) r = adjOf (parentsFn (clearRow g r) rng') r :=
      fun rng rng' => adjOf_congr _ _ _ (hpc rng rng')
    have hxr := loop_avoids_root (parentsFn (clearRow g r) rng1) r
    rw [hadj (fun _ => 0) rng1] at hh2
    rw [happyPathBody_congr (clearRow g r) (parentsFn (clearRow g r) (fun _ => 0))
      (parentsFn (clearRow g r) rng1) r _ _
      (fun x hx => hpc (fun _ => 0) rng1 x (hxr x hx))] at hh2
    simp only [ecl]
    rw [hadj rng2 rng1]
    refine eclBody_congr (clearRow g r) (parentsFn (clearRow g r) rng1)
      (parentsFn (clearRow g r) rng2) r _ _ _ (hpc rng1 rng2) hxr ?_
    intro md hl hm
    rw [happyPathBody, if_pos hl, hm] at hh2
    dsimp only at hh2
    exact ih _ md.graphNew (md.vmap r)
      (fun k => rng1 (k + drawsUsed (clearRow g r)))
      (fun k => rng2 (k + drawsUsed (clearRow g r))) hh2

end Determinism

/-- C4: `edmond_chu_liu` is deterministic on the happy path: when at every
recursion level every non-root row of the root-cleared graph keeps at least
one finite entry (`happyPath`), the random fallback of lines 259-260 fires
only for the root row, whose parent value is never consumed, so two runs with
identical weight matrix and root but different random streams return identical
results (same output matrix, same mutated argument). -/
theorem edmond_chu_liu_deterministic {W : Type} [LinearOrder W] [Sub W]
    (fuel n : ℕ) (g : Fin n → Fin n → WithBot W) (r : Fin n) (rng1 rng2 : ℕ → ℕ)
    (h : happyPath fuel n g r = true) :
    edmond_chu_liu fuel n g r rng1 = edmond_chu_liu fuel n g r rng2 := by
  rw [edmond_chu_liu, edmond_chu_liu, ecl_deterministic fuel n g r rng1 rng2 h]

/-- Closed witness for `edmond_chu_liu_deterministic`: the three-node graph
`hpG3` (with a genuine two-cycle, so the contraction path is exercised) gives
the same answer under the zero stream and under an arbitrary other stream. -/
theorem edmond_chu_liu_deterministic_witness :
    happyPath 4 3 hpG3 0 = true ∧
      edmond_chu_liu 4 3 hpG3 0 (fun _ => 0) =
        edmond_chu_liu 4 3 hpG3 0 (fun k => 5 * k + 2) :=
  ⟨by decide,
   edmond_chu_liu_deterministic 4 3 hpG3 0 (fun _ => 0) (fun k => 5 * k + 2) (by decide)⟩

/-! ## Theorems: structural facts feeding the arborescence proof (claim C1) -/

section SolverFacts

variable {W : Type} [LinearOrder W] [Sub W] {n : ℕ}

lemma le_foldl_max (row : Fin n → WithBot W) :
    ∀ (l : List (Fin n)) (a : WithBot W), a ≤ l.foldl (fun m j => max m (row j)) a := by
  intro l
  induction l with
  | nil =>
    intro a
    exact le_refl a
  | cons c rest ih =>
    intro a
    rw [List.foldl_cons]
    exact le_trans (le_max_left a (row c)) (ih (max a (row c)))

lemma foldl_max_le (row : Fin n → WithBot W) :
    ∀ (l : List (Fin n)) (a : WithBot W) (j : Fin n), j ∈ l →
      row j ≤ l.foldl (fun m j => max m (row j)) a := by
  intro l
  induction l with
  | nil =>
    intro a j hj
    exact absurd hj (List.not_mem_nil _)
  | cons c rest ih =>
    intro a j hj
    rw [List.foldl_cons]
    rcases List.mem_cons.1 hj with hc | hr
    · subst hc
      exact le_trans (le_max_right a (row j)) (le_foldl_max row rest _)
    · exact ih _ j hr

lemma foldl_max_cases (row : Fin n → WithBot W) :
    ∀ (l : List (Fin n)) (a : WithBot W),
      l.foldl (fun m j => max m (row j)) a = a ∨
        ∃ j ∈ l, l.foldl (fun m j => max m (row j)) a = row j := by
  intro l
  induction l with
  | nil =>
    intro a
    exact Or.inl rfl
  | cons c rest ih =>
    intro a
    rw [List.foldl_cons]
    rcases ih (max a (row c)) with h | ⟨j, hj, he⟩
    · rcases max_choice a (row c) with hm | hm
      · exact Or.inl (by rw [h, hm])
      · exact Or.inr ⟨c, List.mem_cons_self _ _, by rw [h, hm]⟩
    · exact Or.inr ⟨j, List.mem_cons_of_mem _ hj, he⟩

lemma bestParent_spec (row : Fin n → WithBot W) (h : ∃ j, ¬ row j = ⊥) :
    ∃ p, bestParent row = some p ∧ ¬ row p = ⊥ := by
  obtain ⟨j0, hj0⟩ := h
  have hj0m : j0 ∈ (List.finRange n).filter (fun j => ¬ row j = ⊥) := by
    rw [List.mem_filter]
    exact ⟨List.mem_finRange j0, by simpa using hj0⟩
  have hmax_ne : ¬ rowMax row = ⊥ := by
    intro hbot
    have hle := foldl_max_le row _ ⊥ j0 hj0m
    rw [rowMax] at hbot
    rw [hbot] at hle
    exact hj0 (le_bot_iff.1 hle)
  rw [bestParent, if_neg hmax_ne]
  rcases hfind : (List.finRange n).find? (fun j => row j = rowMax row) with _ | p
  · rw [List.find?_eq_none] at hfind
    rcases foldl_max_cases row ((List.finRange n).filter (fun j => ¬ row j = ⊥)) ⊥
      with hb | ⟨jm, hjm, hje⟩
    · exact absurd (by rw [rowMax]; exact hb) hmax_ne
    · have hrm : row jm = rowMax row := by
        rw [rowMax]
        exact hje.symm
      have hp := hfind jm (List.mem_finRange jm)
      simp only [decide_eq_true_eq] at hp
      exact absurd hrm hp
  · have hp := List.find?_some hfind
    simp only [decide_eq_true_eq] at hp
    refine ⟨p, rfl, ?_⟩
    rw [hp]
    exact hmax_ne

lemma parentsFn_edge (g1 : Fin n → Fin n → WithBot W) (rng : ℕ → ℕ) (i : Fin n)
    (h : ∃ p, ¬ g1 i p = ⊥) : ¬ g1 i (parentsFn g1 rng i) = ⊥ := by
  obtain ⟨p, hp, hpe⟩ := bestParent_spec (g1 i) h
  rw [parentsFn, hp]
  exact hpe

lemma clearRow_diag (g : Fin n → Fin n → WithBot W) (r : Fin n)
    (hdiag : ∀ i, g i i = ⊥) (i : Fin n) : clearRow g r i i = ⊥ := by
  rw [clearRow]
  by_cases h : i = r
  · rw [if_pos h]
  · rw [if_neg h]
    exact hdiag i

lemma clearRow_off (g : Fin n → Fin n → WithBot W) (r i j : Fin n) (h : ¬ i = r) :
    clearRow g r i j = g i j := by
  rw [clearRow, if_neg h]

lemma reach_clearRow (g : Fin n → Fin n → WithBot W) (r a : Fin n)
    (h : Relation.ReflTransGen (gEdge g) r a) :
    Relation.ReflTransGen (gEdge (clearRow g r)) r a := by
  induction h with
  | refl => exact Relation.ReflTransGen.refl
  | @tail b c hab hbc ih =>
    by_cases hcr : c = r
    · rw [hcr]
    · refine Relation.ReflTransGen.tail ih ?_
      show ¬ clearRow g r c b = ⊥
      rw [clearRow_off g r c b hcr]
      exact hbc

lemma reach_last_edge {R : Fin n → Fin n → Prop} {r i : Fin n}
    (h : Relation.ReflTransGen R r i) (hne : ¬ i = r) : ∃ p, R p i := by
  rcases Relation.ReflTransGen.cases_tail h with he | ⟨c, _, hc⟩
  · exact absurd he hne
  · exact ⟨c, hc⟩

lemma no_cycle_reaches (par : Fin n → Fin n) (r : Fin n)
    (hne : ∀ i, ¬ i = r → ¬ par i = i)
    (hnc : ∀ o m, ¬ IsMinCycle par r o m) :
    ∀ a, ∃ k, par^[k] a = r := by
  intro a
  by_contra hcon
  push_neg at hcon
  have key : ∀ (j j' : ℕ), j < j' → par^[j] a = par^[j'] a → False := by
    intro j j' hlt he
    have hper : par^[j' - j] (par^[j] a) = par^[j] a := by
      rw [← Function.iterate_add_apply, show j' - j + j = j' by omega]
      exact he.symm
    have hex : ∃ mm, 0 < mm ∧ par^[mm] (par^[j] a) = par^[j] a :=
      ⟨j' - j, by omega, hper⟩
    obtain ⟨hmpos, hmcyc⟩ := Nat.find_spec hex
    have hmin : ∀ jj, 0 < jj → jj < Nat.find hex → ¬ par^[jj] (par^[j] a) = par^[j] a :=
      fun jj h1 h2 hh => Nat.find_min hex h2 ⟨h1, hh⟩
    have hor : ∀ jj, ¬ par^[jj] (par^[j] a) = r := by
      intro jj
      rw [← Function.iterate_add_apply]
      exact hcon (jj + j)
    have hm2 : 2 ≤ Nat.find hex := by
      rcases Nat.lt_or_ge (Nat.find hex) 2 with hlt2 | hge
      · exfalso
        have h1 : Nat.find hex = 1 := by omega
        rw [h1, Function.iterate_one] at hmcyc
        have har : ¬ par^[j] a = r := by
          have := hor 0
          rwa [Function.iterate_zero_apply] at this
        exact hne (par^[j] a) har hmcyc
      · exact hge
    exact hnc (par^[j] a) (Nat.find hex) ⟨hm2, hmcyc, hmin, hor⟩
  obtain ⟨k1, k2, hk12, hkeq⟩ :=
    Fintype.exists_ne_map_eq_of_card_lt (fun k : Fin (n + 1) => par^[k.val] a)
      (by rw [Fintype.card_fin, Fintype.card_fin]; omega)
  have hne12 : ¬ k1.val = k2.val := fun h => hk12 (Fin.ext h)
  rcases Nat.lt_or_ge k1.val k2.val with h | h
  · exact key k1.val k2.val h hkeq
  · exact key k2.val k1.val (by omega) hkeq.symm

lemma reach_update_root (par : Fin n → Fin n) (r : Fin n) :
    ∀ (k : ℕ) (a : Fin n), par^[k] a = r →
      ∃ k2, (fun i => if i = r then r else par i)^[k2] a = r := by
  intro k
  induction k with
  | zero =>
    intro a ha
    exact ⟨0, ha⟩
  | succ k ih =>
    intro a ha
    by_cases har : a = r
    · refine ⟨0, ?_⟩
      rw [Function.iterate_zero_apply]
      exact har
    · rw [Function.iterate_succ_apply] at ha
      obtain ⟨k2, hk2⟩ := ih (par a) ha
      refine ⟨k2 + 1, ?_⟩
      rw [Function.iterate_succ_apply]
      simp only [if_neg har]
      exact hk2

end SolverFacts

section CycleListFacts

variable {n : ℕ}

lemma cycleList_length (f : Fin n → Fin n) (o : Fin n) (m : ℕ) :
    (cycleList f o m).length = m := by
  rw [cycleList, List.length_map, List.length_range]

lemma mem_cycleList (f : Fin n → Fin n) (o : Fin n) (m : ℕ) (x : Fin n) :
    x ∈ cycleList f o m ↔ ∃ j, j < m ∧ f^[j + 1] o = x := by
  rw [cycleList]
  simp only [List.mem_map, List.mem_range]

lemma cycleList_getElem (f : Fin n → Fin n) (o : Fin n) (m j : ℕ)
    (h : j < (cycleList f o m).length) :
    (cycleList f o m)[j] = f^[j + 1] o := by
  have h2 : j < ((List.range m).map (fun i => f^[i + 1] o)).length := h
  show ((List.range m).map (fun i => f^[i + 1] o))[j] = f^[j + 1] o
  rw [List.getElem_map, List.getElem_range]

lemma cycleList_closed (f : Fin n → Fin n) (o : Fin n) (m : ℕ) (hm : 0 < m)
    (hcyc : f^[m] o = o) (x : Fin n) (hx : x ∈ cycleList f o m) :
    f x ∈ cycleList f o m := by
  rw [mem_cycleList] at hx ⊢
  obtain ⟨j, hj, he⟩ := hx
  by_cases hj1 : j + 1 < m
  · refine ⟨j + 1, hj1, ?_⟩
    rw [← he, ← Function.iterate_succ_apply' f (j + 1) o]
  · have hjm : j + 1 = m := by omega
    have hfx : f x = f o := by
      rw [← he, hjm, hcyc]
    refine ⟨0, hm, ?_⟩
    rw [hfx, show (0 : ℕ) + 1 = 1 from rfl, Function.iterate_one]

lemma cycleList_iterate_mem (f : Fin n → Fin n) (o : Fin n) (m : ℕ) (hm : 0 < m)
    (hcyc : f^[m] o = o) (a : Fin n) (ha : a ∈ cycleList f o m) :
    ∀ s, f^[s] a ∈ cycleList f o m := by
  intro s
  induction s with
  | zero =>
    rw [Function.iterate_zero_apply]
    exact ha
  | succ s ih =>
    rw [Function.iterate_succ_apply']
    exact cycleList_closed f o m hm hcyc _ ih

lemma cycleList_iterate_reach (f : Fin n → Fin n) (o : Fin n) (m : ℕ) (hm : 0 < m)
    (hcyc : f^[m] o = o) (a t : Fin n) (ha : a ∈ cycleList f o m)
    (ht : t ∈ cycleList f o m) : ∃ s, s < m ∧ f^[s] a = t := by
  rw [mem_cycleList] at ha ht
  obtain ⟨i, hi, hia⟩ := ha
  obtain ⟨j, hj, hjt⟩ := ht
  by_cases hij : i ≤ j
  · refine ⟨j - i, by omega, ?_⟩
    rw [← hia, ← Function.iterate_add_apply, show j - i + (i + 1) = j + 1 by omega, hjt]
  · refine ⟨j + m - i, by omega, ?_⟩
    rw [← hia, ← Function.iterate_add_apply,
      show j + m - i + (i + 1) = (j + 1) + m by omega,
      Function.iterate_add_apply, hcyc, hjt]

lemma cycleList_reverse_head (f : Fin n → Fin n) (o : Fin n) (m : ℕ) (hm : 0 < m)
    (hcyc : f^[m] o = o) (hne : (cycleList f o m).reverse ≠ []) :
    (cycleList f o m).reverse.head hne = o := by
  rw [List.head_reverse]
  rw [List.getLast_eq_getElem]
  rw [cycleList_getElem f o m _ (by rw [cycleList_length]; omega)]
  rw [show (cycleList f o m).length - 1 + 1 = m by rw [cycleList_length]; omega]
  exact hcyc

lemma cycleList_reverse_getLast (f : Fin n → Fin n) (o : Fin n) (m : ℕ) (hm : 0 < m)
    (hne : (cycleList f o m).reverse ≠ []) :
    (cycleList f o m).reverse.getLast hne = f o := by
  rw [List.getLast_reverse]
  rw [List.head_eq_getElem_zero]
  rw [cycleList_getElem f o m 0 (by rw [cycleList_length]; omega)]
  rw [show (0 : ℕ) + 1 = 1 from rfl, Function.iterate_one]

end CycleListFacts

section DictFacts

variable {W : Type} [LinearOrder W] [Sub W] {n : ℕ}

lemma dictGet_cons {β : Type} (k' : ℕ) (v : β) (d : List (ℕ × β)) (k : ℕ) :
    dictGet ((k', v) :: d) k = if k' = k then some v else dictGet d k := by
  by_cases h : k' = k
  · rw [if_pos h, dictGet, List.find?_cons_of_pos _ (by simpa using h)]
    rfl
  · rw [if_neg h, dictGet, List.find?_cons_of_neg _ (by simpa using h), dictGet]

lemma dictGet_nil {β : Type} (k : ℕ) : dictGet (β := β) [] k = none := rfl

omit [LinearOrder W] in
lemma wsub_ne_bot (a b : WithBot W) (ha : ¬ a = ⊥) (hb : ¬ b = ⊥) : ¬ wsub a b = ⊥ := by
  rcases a with _ | a
  · exact absurd rfl ha
  · rcases b with _ | b
    · exact absurd rfl hb
    · rw [wsub]
      exact fun h => Option.noConfusion h

lemma tlInner_spec (graph : Fin n → Fin n → WithBot W) (par : Fin n → Fin n)
    (loop vo : List (Fin n)) (x : Fin n) (hxl : x ∈ loop)
    (hwx : ¬ graph x (par x) = ⊥) :
    ∀ (yl : List (Fin n)) (acc : List (ℕ × Fin n) × List (ℕ × WithBot W)),
      (∀ y ∈ yl, y ∈ vo) → TlInv graph loop vo acc →
      TlInv graph loop vo (yl.foldl (tlStep graph par x) acc) ∧
      (∀ k, (dictGet acc.2 k).isSome = true →
        (dictGet (yl.foldl (tlStep graph par x) acc).2 k).isSome = true) ∧
      (∀ y ∈ yl, ¬ graph x y = ⊥ →
        (dictGet (yl.foldl (tlStep graph par x) acc).2 y.val).isSome = true) := by
  intro yl
  induction yl with
  | nil =>
    intro acc hyl hinv
    exact ⟨hinv, fun k hk => hk, fun y hy => absurd hy (List.not_mem_nil _)⟩
  | cons y rest ih =>
    intro acc hyl hinv
    rw [List.foldl_cons]
    obtain ⟨hal, hval, hwv⟩ := hinv
    have hyv : y ∈ vo := hyl y (List.mem_cons_self _ _)
    have hpush : ∀ hedge : ¬ graph x y = ⊥,
        TlInv graph loop vo
          ((y.val, x) :: acc.1, (y.val, wsub (graph x y) (graph x (par x))) :: acc.2) ∧
        (∀ k, (dictGet acc.2 k).isSome = true →
          (dictGet ((y.val, wsub (graph x y) (graph x (par x))) :: acc.2) k).isSome = true) ∧
        (dictGet ((y.val, wsub (graph x y) (graph x (par x))) :: acc.2) y.val).isSome
          = true := by
      intro hedge
      refine ⟨⟨?_, ?_, ?_⟩, ?_, ?_⟩
      · intro k
        rw [dictGet_cons, dictGet_cons]
        by_cases hk : y.val = k
        · rw [if_pos hk, if_pos hk]
          rfl
        · rw [if_neg hk, if_neg hk]
          exact hal k
      · intro k x' hx'
        rw [dictGet_cons] at hx'
        by_cases hk : y.val = k
        · rw [if_pos hk] at hx'
          injection hx' with hx'
          rw [← hx']
          exact ⟨hxl, y, hyv, hk, hedge⟩
        · rw [if_neg hk] at hx'
          exact hval k x' hx'
      · intro k w hw
        rw [dictGet_cons] at hw
        by_cases hk : y.val = k
        · rw [if_pos hk] at hw
          injection hw with hw
          rw [← hw]
          exact wsub_ne_bot _ _ hedge hwx
        · rw [if_neg hk] at hw
          exact hwv k w hw
      · intro k hk
        rw [dictGet_cons]
        by_cases hyk : y.val = k
        · rw [if_pos hyk]
          rfl
        · rw [if_neg hyk]
          exact hk
      · rw [dictGet_cons, if_pos rfl]
        rfl
    have hstep : TlInv graph loop vo (tlStep graph par x acc y) ∧
        (∀ k, (dictGet acc.2 k).isSome = true →
          (dictGet (tlStep graph par x acc y).2 k).isSome = true) ∧
        (¬ graph x y = ⊥ →
          (dictGet (tlStep graph par x acc y).2 y.val).isSome = true) := by
      rw [tlStep]
      by_cases hedge : ¬ graph x y = ⊥
      · rw [if_pos hedge]
        dsimp only
        rcases hd : dictGet acc.2 y.val with _ | w0
        · obtain ⟨h1, h2, h3⟩ := hpush hedge
          exact ⟨h1, h2, fun _ => h3⟩
        · dsimp only
          by_cases hlt : w0 < wsub (graph x y) (graph x (par x))
          · rw [if_pos hlt]
            obtain ⟨h1, h2, h3⟩ := hpush hedge
            exact ⟨h1, h2, fun _ => h3⟩
          · rw [if_neg hlt]
            refine ⟨⟨hal, hval, hwv⟩, fun k hk => hk, fun _ => ?_⟩
            rw [hd]
            rfl
      · rw [if_neg hedge]
        exact ⟨⟨hal, hval, hwv⟩, fun k hk => hk, fun he => absurd he hedge⟩
    obtain ⟨hs1, hs2, hs3⟩ := hstep
    obtain ⟨hi1, hi2, hi3⟩ := ih (tlStep graph par x acc y)
      (fun z hz => hyl z (List.mem_cons_of_mem _ hz)) hs1
    refine ⟨hi1, ?_, ?_⟩
    · intro k hk
      exact hi2 k (hs2 k hk)
    · intro z hz hze
      rcases List.mem_cons.1 hz with hzy | hzr
      · rw [hzy] at hze ⊢
        exact hi2 _ (hs3 hze)
      · exact hi3 z hzr hze

lemma tlDicts_spec (graph : Fin n → Fin n → WithBot W) (par : Fin n → Fin n)
    (loop vo : List (Fin n)) (hpar : ∀ x ∈ loop, ¬ graph x (par x) = ⊥) :
    TlInv graph loop vo (toLoopDicts graph par loop vo) ∧
    (∀ x ∈ loop, ∀ y ∈ vo, ¬ graph x y = ⊥ →
      (dictGet (toLoopDicts graph par loop vo).2 y.val).isSome = true) := by
  have hinit : TlInv graph loop vo ([], []) := by
    refine ⟨fun k => rfl, fun k x hx => ?_, fun k w hw => ?_⟩
    · rw [dictGet_nil] at hx
      exact absurd hx (by simp)
    · rw [dictGet_nil] at hw
      exact absurd hw (by simp)
  suffices h : ∀ (ll : List (Fin n)) (acc : List (ℕ × Fin n) × List (ℕ × WithBot W)),
      (∀ x ∈ ll, x ∈ loop) → TlInv graph loop vo acc →
      TlInv graph loop vo
        (ll.foldl (fun acc x => vo.foldl (tlStep graph par x) acc) acc) ∧
      (∀ k, (dictGet acc.2 k).isSome = true →
        (dictGet (ll.foldl (fun acc x => vo.foldl (tlStep graph par x) acc) acc).2 k).isSome
          = true) ∧
      (∀ x ∈ ll, ∀ y ∈ vo, ¬ graph x y = ⊥ →
        (dictGet (ll.foldl (fun acc x => vo.foldl (tlStep graph par x) acc) acc).2 y.val).isSome
          = true) by
    obtain ⟨h1, _, h3⟩ := h loop ([], []) (fun x hx => hx) hinit
    exact ⟨h1, h3⟩
  intro ll
  induction ll with
  | nil =>
    intro acc hll hinv
    exact ⟨hinv, fun k hk => hk, fun x hx => absurd hx (List.not_mem_nil _)⟩
  | cons x rest ih =>
    intro acc hll hinv
    rw [List.foldl_cons]
    have hxl : x ∈ loop := hll x (List.mem_cons_self _ _)
    obtain ⟨hs1, hs2, hs3⟩ := tlInner_spec graph par loop vo x hxl (hpar x hxl)
      vo acc (fun y hy => hy) hinv
    obtain ⟨hi1, hi2, hi3⟩ := ih (vo.foldl (tlStep graph par x) acc)
      (fun z hz => hll z (List.mem_cons_of_mem _ hz)) hs1
    refine ⟨hi1, ?_, ?_⟩
    · intro k hk
      exact hi2 k (hs2 k hk)
    · intro z hz yy hyy hze
      rcases List.mem_cons.1 hz with hzx | hzr
      · rw [hzx] at hze
        exact hi2 _ (hs3 yy hyy hze)
      · exact hi3 z hzr yy hyy hze

lemma flInner_spec (graph : Fin n → Fin n → WithBot W)
    (loop vo : List (Fin n)) (x : Fin n) (hxl : x ∈ loop) :
    ∀ (yl : List (Fin n)) (acc : List (ℕ × Fin n) × List (ℕ × WithBot W)),
      (∀ y ∈ yl, y ∈ vo) → FlInv graph loop vo acc →
      FlInv graph loop vo (yl.foldl (flStep graph x) acc) ∧
      (∀ k, (dictGet acc.2 k).isSome = true →
        (dictGet (yl.foldl (flStep graph x) acc).2 k).isSome = true) ∧
      (∀ y ∈ yl, ¬ graph y x = ⊥ →
        (dictGet (yl.foldl (flStep graph x) acc).2 y.val).isSome = true) := by
  intro yl
  induction yl with
  | nil =>
    intro acc hyl hinv
    exact ⟨hinv, fun k hk => hk, fun y hy => absurd hy (List.not_mem_nil _)⟩
  | cons y rest ih =>
    intro acc hyl hinv
    rw [List.foldl_cons]
    obtain ⟨hal, hval, hwv⟩ := hinv
    have hyv : y ∈ vo := hyl y (List.mem_cons_self _ _)
    have hpush : ∀ hedge : ¬ graph y x = ⊥,
        FlInv graph loop vo ((y.val, x) :: acc.1, (y.val, graph y x) :: acc.2) ∧
        (∀ k, (dictGet acc.2 k).isSome = true →
          (dictGet ((y.val, graph y x) :: acc.2) k).isSome = true) ∧
        (dictGet ((y.val, graph y x) :: acc.2) y.val).isSome = true := by
      intro hedge
      refine ⟨⟨?_, ?_, ?_⟩, ?_, ?_⟩
      · intro k
        rw [dictGet_cons, dictGet_cons]
        by_cases hk : y.val = k
        · rw [if_pos hk, if_pos hk]
          rfl
        · rw [if_neg hk, if_neg hk]
          exact hal k
      · intro k x' hx'
        rw [dictGet_cons] at hx'
        by_cases hk : y.val = k
        · rw [if_pos hk] at hx'
          injection hx' with hx'
          rw [← hx']
          exact ⟨hxl, y, hyv, hk, hedge⟩
        · rw [if_neg hk] at hx'
          exact hval k x' hx'
      · intro k w hw
        rw [dictGet_cons] at hw
        by_cases hk : y.val = k
        · rw [if_pos hk] at hw
          injection hw with hw
          rw [← hw]
          exact hedge
        · rw [if_neg hk] at hw
          exact hwv k w hw
      · intro k hk
        rw [dictGet_cons]
        by_cases hyk : y.val = k
        · rw [if_pos hyk]
          rfl
        · rw [if_neg hyk]
          exact hk
      · rw [dictGet_cons, if_pos rfl]
        rfl
    have hstep : FlInv graph loop vo (flStep graph x acc y) ∧
        (∀ k, (dictGet acc.2 k).isSome = true →
          (dictGet (flStep graph x acc y).2 k).isSome = true) ∧
        (¬ graph y x = ⊥ →
          (dictGet (flStep graph x acc y).2 y.val).isSome = true) := by
      rw [flStep]
      by_cases hedge : ¬ graph y x = ⊥
      · rw [if_pos hedge]
        dsimp only
        rcases hd : dictGet acc.2 y.val with _ | w0
        · obtain ⟨h1, h2, h3⟩ := hpush hedge
          exact ⟨h1, h2, fun _ => h3⟩
        · dsimp only
          by_cases hlt : w0 < graph y x
          · rw [if_pos hlt]
            obtain ⟨h1, h2, h3⟩ := hpush hedge
            exact ⟨h1, h2, fun _ => h3⟩
          · rw [if_neg hlt]
            refine ⟨⟨hal, hval, hwv⟩, fun k hk => hk, fun _ => ?_⟩
            rw [hd]
            rfl
      · rw [if_neg hedge]
        exact ⟨⟨hal, hval, hwv⟩, fun k hk => hk, fun he => absurd he hedge⟩
    obtain ⟨hs1, hs2, hs3⟩ := hstep
    obtain ⟨hi1, hi2, hi3⟩ := ih (flStep graph x acc y)
      (fun z hz => hyl z (List.mem_cons_of_mem _ hz)) hs1
    refine ⟨hi1, ?_, ?_⟩
    · intro k hk
      exact hi2 k (hs2 k hk)
    · intro z hz hze
      rcases List.mem_cons.1 hz with hzy | hzr
      · rw [hzy] at hze ⊢
        exact hi2 _ (hs3 hze)
      · exact hi3 z hzr hze

lemma flDicts_spec (graph : Fin n → Fin n → WithBot W)
    (loop vo : List (Fin n)) :
    FlInv graph loop vo (fromLoopDicts graph loop vo) ∧
    (∀ x ∈ loop, ∀ y ∈ vo, ¬ graph y x = ⊥ →
      (dictGet (fromLoopDicts graph loop vo).2 y.val).isSome = true) := by
  have hinit : FlInv graph loop vo ([], []) := by
    refine ⟨fun k => rfl, fun k x hx => ?_, fun k w hw => ?_⟩
    · rw [dictGet_nil] at hx
      exact absurd hx (by simp)
    · rw [dictGet_nil] at hw
      exact absurd hw (by simp)
  suffices h : ∀ (ll : List (Fin n)) (acc : List (ℕ × Fin n) × List (ℕ × WithBot W)),
      (∀ x ∈ ll, x ∈ loop) → FlInv graph loop vo acc →
      FlInv graph loop vo
        (ll.foldl (fun acc x => vo.foldl (flStep graph x) acc) acc) ∧
      (∀ k, (dictGet acc.2 k).isSome = true →
        (dictGet (ll.foldl (fun acc x => vo.foldl (flStep graph x) acc) acc).2 k).isSome
          = true) ∧
      (∀ x ∈ ll, ∀ y ∈ vo, ¬ graph y x = ⊥ →
        (dictGet (ll.foldl (fun acc x => vo.foldl (flStep graph x) acc) acc).2 y.val).isSome
          = true) by
    obtain ⟨h1, _, h3⟩ := h loop ([], []) (fun x hx => hx) hinit
    exact ⟨h1, h3⟩
  intro ll
  induction ll with
  | nil =>
    intro acc hll hinv
    exact ⟨hinv, fun k hk => hk, fun x hx => absurd hx (List.not_mem_nil _)⟩
  | cons x rest ih =>
    intro acc hll hinv
    rw [List.foldl_cons]
    have hxl : x ∈ loop := hll x (List.mem_cons_self _ _)
    obtain ⟨hs1, hs2, hs3⟩ := flInner_spec graph loop vo x hxl vo acc (fun y hy => hy) hinv
    obtain ⟨hi1, hi2, hi3⟩ := ih (vo.foldl (flStep graph x) acc)
      (fun z hz => hll z (List.mem_cons_of_mem _ hz)) hs1
    refine ⟨hi1, ?_, ?_⟩
    · intro k hk
      exact hi2 k (hs2 k hk)
    · intro z hz yy hyy hze
      rcases List.mem_cons.1 hz with hzx | hzr
      · rw [hzx] at hze
        exact hi2 _ (hs3 yy hyy hze)
      · exact hi3 z hzr yy hyy hze

end DictFacts

section OutsideFacts

variable {n : ℕ}

lemma mem_compl_iff (cl : List (Fin n)) (x : Fin n) :
    x ∈ (List.finRange n).filter (fun i => ¬ i ∈ cl) ↔ ¬ x ∈ cl := by
  rw [List.mem_filter]
  simp [List.mem_finRange]

lemma compl_nodup (cl : List (Fin n)) :
    ((List.finRange n).filter (fun i => ¬ i ∈ cl)).Nodup :=
  (List.nodup_finRange n).filter _

lemma compl_length (cl : List (Fin n)) (hnd : cl.Nodup) :
    ((List.finRange n).filter (fun i => ¬ i ∈ cl)).length = n - cl.length := by
  have hsplit := List.length_eq_length_filter_add (l := List.finRange n)
    (fun i => decide (i ∈ cl))
  have hperm : List.Perm ((List.finRange n).filter (fun i => decide (i ∈ cl))) cl := by
    apply List.perm_of_nodup_nodup_toFinset_eq ((List.nodup_finRange n).filter _) hnd
    ext a
    simp [List.mem_filter, List.mem_finRange]
  have hmem_len := hperm.length_eq
  rw [List.length_finRange] at hsplit
  have hsame : (List.finRange n).filter (fun i => ¬ i ∈ cl) =
      (List.finRange n).filter (fun i => ! decide (i ∈ cl)) := by
    apply List.filter_congr
    intro a _
    simp [decide_not]
  rw [hsame]
  omega

lemma find?_unique {α : Type} {p : α → Bool} {l : List α} {x : α}
    (hx : x ∈ l) (hpx : p x = true) (huniq : ∀ y, p y = true → y = x) :
    l.find? p = some x := by
  induction l with
  | nil => exact absurd hx (List.not_mem_nil _)
  | cons c rest ih =>
    by_cases hc : p c = true
    · rw [List.find?_cons_of_pos _ hc, huniq c hc]
    · rcases List.mem_cons.1 hx with hxc | hxr
      · exact absurd (by rw [← hxc]; exact hpx) hc
      · rw [List.find?_cons_of_neg _ hc]
        exact ih hxr

lemma vMapNat_mem (vo : List (Fin n)) (i : Fin n) (h : i ∈ vo) :
    vMapNat vo i = List.indexOf i vo := by
  rw [vMapNat, if_pos h]

lemma vMapNat_notMem (vo : List (Fin n)) (i : Fin n) (h : ¬ i ∈ vo) :
    vMapNat vo i = vo.length := by
  rw [vMapNat, if_neg h]

lemma vMapNat_lt (vo : List (Fin n)) (i : Fin n) (h : i ∈ vo) :
    vMapNat vo i < vo.length := by
  rw [vMapNat_mem vo i h]
  exact List.indexOf_lt_length.2 h

lemma vMapNat_get (vo : List (Fin n)) (hnd : vo.Nodup) (k : ℕ) (hk : k < vo.length) :
    vMapNat vo (vo.get ⟨k, hk⟩) = k := by
  rw [vMapNat, if_pos (List.get_mem vo k hk)]
  exact List.get_indexOf hnd ⟨k, hk⟩

lemma vMapNat_inj (vo : List (Fin n)) (hnd : vo.Nodup) (x y : Fin n)
    (hx : x ∈ vo) (hy : y ∈ vo) (h : vMapNat vo x = vMapNat vo y) : x = y := by
  rw [vMapNat_mem _ _ hx, vMapNat_mem _ _ hy] at h
  exact (List.indexOf_inj hx hy).1 h

end OutsideFacts

section MergedGraphFacts

variable {W : Type} [LinearOrder W] [Sub W] {n : ℕ}

lemma mergedGraph_oo {m : ℕ} (graph : Fin n → Fin n → WithBot W)
    (tl2 fl2 : List (ℕ × WithBot W)) (vo : List (Fin n)) (hnd : vo.Nodup)
    (a b : Fin m) (ha : a.val < vo.length) (hb : b.val < vo.length) :
    mergedGraph m graph tl2 fl2 vo a b =
      graph (vo.get ⟨a.val, ha⟩) (vo.get ⟨b.val, hb⟩) := by
  rw [mergedGraph]
  rw [dif_pos ha]
  rw [dif_pos hb]
  rw [if_pos (And.intro (List.get_indexOf hnd ⟨a.val, ha⟩)
    (List.get_indexOf hnd ⟨b.val, hb⟩))]

lemma mergedGraph_ol {m : ℕ} (graph : Fin n → Fin n → WithBot W)
    (tl2 fl2 : List (ℕ × WithBot W)) (vo : List (Fin n)) (hnd : vo.Nodup)
    (a b : Fin m) (ha : a.val < vo.length) (hb : b.val = vo.length) :
    mergedGraph m graph tl2 fl2 vo a b =
      (dictGet fl2 (vo.get ⟨a.val, ha⟩).val).getD ⊥ := by
  rw [mergedGraph]
  rw [dif_pos ha]
  rw [dif_neg (by omega)]
  rw [if_pos (And.intro hb (List.get_indexOf hnd ⟨a.val, ha⟩))]

lemma mergedGraph_lo {m : ℕ} (graph : Fin n → Fin n → WithBot W)
    (tl2 fl2 : List (ℕ × WithBot W)) (vo : List (Fin n)) (hnd : vo.Nodup)
    (a b : Fin m) (ha : a.val = vo.length) (hb : b.val < vo.length) :
    mergedGraph m graph tl2 fl2 vo a b =
      (dictGet tl2 (vo.get ⟨b.val, hb⟩).val).getD ⊥ := by
  rw [mergedGraph]
  rw [dif_neg (by omega), if_pos ha, dif_pos hb]
  rw [if_pos (List.get_indexOf hnd ⟨b.val, hb⟩)]

lemma mergedGraph_ll {m : ℕ} (graph : Fin n → Fin n → WithBot W)
    (tl2 fl2 : List (ℕ × WithBot W)) (vo : List (Fin n))
    (a b : Fin m) (ha : a.val = vo.length) (hb : b.val = vo.length) :
    mergedGraph m graph tl2 fl2 vo a b = ⊥ := by
  rw [mergedGraph]
  rw [dif_neg (by omega), if_pos ha, dif_neg (by omega)]

lemma merge_nodes_isOk {m : ℕ} (graph : Fin n → Fin n → WithBot W)
    (par : Fin n → Fin n) (loop vo : List (Fin n)) (hv : vo.length < m) :
    ∃ md : MergeData n m W, merge_nodes m graph par loop vo = Except.ok md := by
  rw [merge_nodes, dif_pos hv]
  exact ⟨_, rfl⟩

lemma merge_nodes_fields {m : ℕ} (graph : Fin n → Fin n → WithBot W)
    (par : Fin n → Fin n) (loop vo : List (Fin n)) (hv : vo.length < m)
    (md : MergeData n m W)
    (hmd : merge_nodes m graph par loop vo = Except.ok md) :
    (∀ i, (md.vmap i).val = vMapNat vo i) ∧
    md.vToLoop = (toLoopDicts graph par loop vo).1 ∧
    md.wToLoop = (toLoopDicts graph par loop vo).2 ∧
    md.loopToV = (fromLoopDicts graph loop vo).1 ∧
    md.wFromLoop = (fromLoopDicts graph loop vo).2 ∧
    md.graphNew = mergedGraph m graph (toLoopDicts graph par loop vo).2
      (fromLoopDicts graph loop vo).2 vo := by
  rw [merge_nodes, dif_pos hv, Except.ok.injEq] at hmd
  rw [← hmd]
  exact ⟨fun i => rfl, rfl, rfl, rfl, rfl, rfl⟩

end MergedGraphFacts

section CyclePairs

variable {n : ℕ}

lemma cycleList_reverse_get (f : Fin n → Fin n) (o : Fin n) (m i : ℕ)
    (hi : i < (cycleList f o m).reverse.length) :
    (cycleList f o m).reverse.get ⟨i, hi⟩ = f^[m - i] o := by
  have hi' : i < m := by
    rw [List.length_reverse, cycleList_length] at hi
    exact hi
  rw [List.get_eq_getElem, List.getElem_reverse]
  rw [cycleList_getElem f o m _ (by rw [cycleList_length]; omega)]
  rw [show (cycleList f o m).length - 1 - i + 1 = m - i by rw [cycleList_length]; omega]

lemma mem_zip_tail_iff (L : List (Fin n)) (b a : Fin n) :
    (b, a) ∈ L.zip L.tail ↔ ∃ i, ∃ h1 : i + 1 < L.length,
      L.get ⟨i, by omega⟩ = b ∧ L.get ⟨i + 1, h1⟩ = a := by
  constructor
  · intro hmem
    rw [List.mem_iff_getElem] at hmem
    obtain ⟨i, hi, he⟩ := hmem
    have hib : i < L.length ∧ i < L.tail.length := by
      rw [List.length_zip, Nat.lt_min] at hi
      exact hi
    have hib2 : i + 1 < L.length := by
      have := hib.2
      rw [List.length_tail] at this
      omega
    rw [List.getElem_zip] at he
    rw [List.getElem_tail] at he
    rw [Prod.mk.injEq] at he
    refine ⟨i, hib2, ?_, ?_⟩
    · rw [List.get_eq_getElem]
      exact he.1
    · rw [List.get_eq_getElem]
      exact he.2
  · rintro ⟨i, h1, hb, ha⟩
    rw [List.mem_iff_getElem]
    refine ⟨i, ?_, ?_⟩
    · rw [List.length_zip, Nat.lt_min]
      constructor
      · omega
      · rw [List.length_tail]
        omega
    · rw [List.getElem_zip, List.getElem_tail, Prod.mk.injEq]
      constructor
      · rw [List.get_eq_getElem] at hb
        exact hb
      · rw [List.get_eq_getElem] at ha
        exact ha

lemma cycle_pairs_iff (f : Fin n → Fin n) (o : Fin n) (m : ℕ) (hm : 2 ≤ m)
    (hcyc : f^[m] o = o) (hne : (cycleList f o m).reverse ≠ []) (a b : Fin n) :
    ((b, a) ∈ (cycleList f o m).reverse.zip (cycleList f o m).reverse.tail ∨
      (a = (cycleList f o m).reverse.head hne ∧
       b = (cycleList f o m).reverse.getLast hne)) ↔
    (a ∈ cycleList f o m ∧ b = f a) := by
  have hlen : (cycleList f o m).reverse.length = m := by
    rw [List.length_reverse, cycleList_length]
  constructor
  · intro h
    rcases h with hz | ⟨hah, hbl⟩
    · rw [mem_zip_tail_iff] at hz
      obtain ⟨i, h1, hb, ha⟩ := hz
      rw [hlen] at h1
      have hb' : b = f^[m - i] o := by
        rw [← hb, cycleList_reverse_get]
      have ha' : a = f^[m - i - 1] o := by
        rw [← ha, cycleList_reverse_get]
        rw [show m - (i + 1) = m - i - 1 by omega]
      constructor
      · rw [mem_cycleList]
        refine ⟨m - i - 2, by omega, ?_⟩
        rw [ha', show m - i - 2 + 1 = m - i - 1 by omega]
      · rw [hb', ha', ← Function.iterate_succ_apply' f (m - i - 1) o,
          show Nat.succ (m - i - 1) = m - i by omega]
    · rw [cycleList_reverse_head f o m (by omega) hcyc hne] at hah
      rw [cycleList_reverse_getLast f o m (by omega) hne] at hbl
      constructor
      · rw [mem_cycleList]
        refine ⟨m - 1, by omega, ?_⟩
        rw [hah, show m - 1 + 1 = m by omega]
        exact hcyc
      · rw [hbl, hah]
  · rintro ⟨haL, hba⟩
    rw [mem_cycleList] at haL
    obtain ⟨j, hj, hja⟩ := haL
    by_cases hj1 : j + 1 < m
    · left
      rw [mem_zip_tail_iff]
      have hb1 : m - j - 2 + 1 < (cycleList f o m).reverse.length := by
        rw [hlen]
        omega
      refine ⟨m - j - 2, hb1, ?_, ?_⟩
      · rw [cycleList_reverse_get]
        rw [show m - (m - j - 2) = j + 2 by omega, hba, ← hja,
          ← Function.iterate_succ_apply' f (j + 1) o,
          show Nat.succ (j + 1) = j + 2 by omega]
      · rw [cycleList_reverse_get]
        rw [show m - (m - j - 2 + 1) = j + 1 by omega, hja]
    · right
      have hjm : j + 1 = m := by omega
      have hao : a = o := by
        rw [← hja, hjm, hcyc]
      constructor
      · rw [cycleList_reverse_head f o m (by omega) hcyc hne, hao]
      · rw [cycleList_reverse_getLast f o m (by omega) hne, hba, hao]

lemma cycle_brk (f : Fin n → Fin n) (o : Fin n) (m : ℕ) (hm : 2 ≤ m)
    (hcyc : f^[m] o = o)
    (target : Fin n) (ht : target ∈ (cycleList f o m).reverse)
    (hlt : (List.indexOf target (cycleList f o m).reverse +
        (cycleList f o m).reverse.length - 1) % (cycleList f o m).reverse.length <
      (cycleList f o m).reverse.length) :
    (cycleList f o m).reverse.get
      ⟨(List.indexOf target (cycleList f o m).reverse +
          (cycleList f o m).reverse.length - 1) % (cycleList f o m).reverse.length,
        hlt⟩ = f target := by
  have hlen : (cycleList f o m).reverse.length = m := by
    rw [List.length_reverse, cycleList_length]
  have hidx : List.indexOf target (cycleList f o m).reverse < m := by
    have h := List.indexOf_lt_length.2 ht
    rw [hlen] at h
    exact h
  have htarget : target = f^[m - List.indexOf target (cycleList f o m).reverse] o := by
    rw [← cycleList_reverse_get f o m _ (by rw [hlen]; omega)]
    rw [List.get_eq_getElem, List.getElem_indexOf]
  rw [cycleList_reverse_get]
  by_cases h0 : List.indexOf target (cycleList f o m).reverse = 0
  · rw [h0, hlen]
    rw [show (0 + m - 1) % m = m - 1 by rw [Nat.mod_eq_of_lt (by omega)]; omega]
    rw [show m - (m - 1) = 1 by omega, Function.iterate_one]
    rw [htarget, h0, Nat.sub_zero, hcyc]
  · rw [hlen]
    rw [show (List.indexOf target (cycleList f o m).reverse + m - 1) % m
        = List.indexOf target (cycleList f o m).reverse - 1 by
      rw [show List.indexOf target (cycleList f o m).reverse + m - 1
          = (List.indexOf target (cycleList f o m).reverse - 1) + m by omega]
      rw [Nat.add_mod_right, Nat.mod_eq_of_lt (by omega)]]
    conv_rhs => rw [htarget]
    rw [← Function.iterate_succ_apply' f
      (m - List.indexOf target (cycleList f o m).reverse) o]
    rw [show Nat.succ (m - List.indexOf target (cycleList f o m).reverse)
        = m - (List.indexOf target (cycleList f o m).reverse - 1) by omega]

end CyclePairs

section ArborescenceProof

variable {W : Type} [LinearOrder W] [Sub W]

lemma ecl_spec :
    ∀ (fuel n : ℕ) (g : Fin n → Fin n → WithBot W) (r : Fin n) (rng : ℕ → ℕ),
      n ≤ fuel → (∀ i, g i i = ⊥) →
      (∀ a, Relation.ReflTransGen (gEdge g) r a) →
      ∃ M P, ecl fuel n g r rng = Except.ok M ∧
        (∀ i j, M i j = if j = P i then 1 else 0) ∧
        P r = r ∧ (∀ i, ¬ i = r → ¬ P i = i) ∧
        (∀ i, ¬ i = r → ¬ g i (P i) = ⊥) ∧
        (∀ a, ∃ k, P^[k] a = r) := by
  intro fuel
  induction fuel with
  | zero =>
    intro n g r rng hfuel hdiag hreach
    exact absurd r.pos (by omega)
  | succ fuel ih =>
    intro n g r rng hfuel hdiag hreach
    have hg1diag : ∀ i, clearRow g r i i = ⊥ := clearRow_diag g r hdiag
    have hg1reach : ∀ a, Relation.ReflTransGen (gEdge (clearRow g r)) r a :=
      fun a => reach_clearRow g r a (hreach a)
    have hrowfin : ∀ i : Fin n, ¬ i = r → ∃ p, ¬ clearRow g r i p = ⊥ := by
      intro i hi
      obtain ⟨p, hp⟩ := reach_last_edge (hg1reach i) hi
      exact ⟨p, hp⟩
    have hparE : ∀ i : Fin n, ¬ i = r →
        ¬ clearRow g r i (parentsFn (clearRow g r) rng i) = ⊥ :=
      fun i hi => parentsFn_edge (clearRow g r) rng i (hrowfin i hi)
    have hparNe : ∀ i : Fin n, ¬ i = r → ¬ parentsFn (clearRow g r) rng i = i := by
      intro i hi heq
      have hp := hparE i hi
      rw [heq] at hp
      exact hp (hg1diag i)
    have hparEg : ∀ i : Fin n, ¬ i = r →
        ¬ g i (parentsFn (clearRow g r) rng i) = ⊥ := by
      intro i hi
      have h := hparE i hi
      rwa [clearRow_off g r i _ hi] at h
    rcases check_loop_spec (parentsFn (clearRow g r) rng) r with
      ⟨o, m, ⟨hm2, hcyc, hmin, hnr⟩, hmn, hCL⟩ | ⟨hCL, hnc⟩
    · -- a cycle was detected and contracted
      set par := parentsFn (clearRow g r) rng with hpar_def
      set cl := cycleList par o m with hcl_def
      set L := cl.reverse with hL_def
      set V := (List.finRange n).filter (fun i => ¬ i ∈ cl) with hV_def
      have hmpos : 0 < m := by omega
      have hLlen : L.length = m := by
        rw [hL_def, List.length_reverse, hcl_def, cycleList_length]
      have hclnd : cl.Nodup := by
        rw [hcl_def, cycleList]
        exact cycle_list_nodup par o m hcyc hmin
      have hvnd : V.Nodup := by
        rw [hV_def]
        exact compl_nodup cl
      have hvlen : V.length = n - m := by
        rw [hV_def, compl_length cl hclnd, hcl_def, cycleList_length]
      have hclr : ∀ x ∈ cl, ¬ x = r := by
        intro x hx hxe
        rw [hcl_def, mem_cycleList] at hx
        obtain ⟨j, hj, hje⟩ := hx
        have hh := hnr (j + 1)
        rw [hje, hxe] at hh
        exact hh rfl
      have hmemV : ∀ x : Fin n, x ∈ V ↔ ¬ x ∈ cl := by
        intro x
        rw [hV_def]
        exact mem_compl_iff cl x
      have hrV : r ∈ V := (hmemV r).2 (fun hrc => hclr r hrc rfl)
      have hoL : o ∈ cl := by
        rw [hcl_def, mem_cycleList]
        refine ⟨m - 1, by omega, ?_⟩
        rw [show m - 1 + 1 = m by omega]
        exact hcyc
      have hparLoop : ∀ x ∈ L, ¬ clearRow g r x (par x) = ⊥ := by
        intro x hx
        rw [hL_def, List.mem_reverse] at hx
        exact hparE x (hclr x hx)
      rw [show ecl (fuel + 1) n g r rng = eclBody n (clearRow g r) par r
          (check_loop (adjOf par r))
          (fun m2 gm rm => ecl fuel m2 gm rm
            (fun k => rng (k + drawsUsed (clearRow g r)))) from rfl]
      rw [hCL, eclBody]
      dsimp only
      have hl2 : 2 ≤ L.length := by
        rw [hLlen]
        exact hm2
      rw [dif_pos hl2]
      have hv : V.length < n - L.length + 1 := by
        rw [hvlen, hLlen]
        omega
      obtain ⟨md, hmd⟩ := merge_nodes_isOk (clearRow g r) par L V hv
      rw [hmd]
      dsimp only
      obtain ⟨hvmap, hvTL, hwTL, hlTV, hwFL, hgNew⟩ :=
        merge_nodes_fields (clearRow g r) par L V hv md hmd
      obtain ⟨⟨htlA, htlV, htlW⟩, htlKey⟩ := tlDicts_spec (clearRow g r) par L V hparLoop
      obtain ⟨⟨hflA, hflV, hflW⟩, hflKey⟩ := flDicts_spec (clearRow g r) L V
      have hvcl : ∀ x ∈ cl, (md.vmap x).val = V.length := by
        intro x hx
        rw [hvmap, vMapNat_notMem]
        intro hxV
        exact ((hmemV x).1 hxV) hx
      have hvout : ∀ x ∈ V, (md.vmap x).val = List.indexOf x V :=
        fun x hx => by rw [hvmap, vMapNat_mem _ _ hx]
      have hvlt : ∀ x ∈ V, (md.vmap x).val < V.length :=
        fun x hx => by rw [hvmap]; exact vMapNat_lt _ _ hx
      have hvgetmd : ∀ (k : ℕ) (hk : k < V.length), (md.vmap (V.get ⟨k, hk⟩)).val = k :=
        fun k hk => by rw [hvmap]; exact vMapNat_get V hvnd k hk
      have hvgetx : ∀ (x : Fin n) (hx : x ∈ V), V.get ⟨(md.vmap x).val, hvlt x hx⟩ = x := by
        intro x hx
        simp only [hvout x hx]
        exact List.indexOf_get (List.indexOf_lt_length.2 hx)
      have hvinj : ∀ x y : Fin n, x ∈ V → y ∈ V → md.vmap x = md.vmap y → x = y := by
        intro x y hx hy he
        refine vMapNat_inj V hvnd x y hx hy ?_
        rw [← hvmap, ← hvmap, he]
      have hvco : (md.vmap o).val = V.length := hvcl o hoL
      have hfin_all : ∀ c : Fin (n - L.length + 1), c.val < V.length ∨ c.val = V.length := by
        intro c
        have h1 : c.val < n - L.length + 1 := c.isLt
        omega
      have hLne : L ≠ [] := by
        intro h
        rw [h] at hl2
        exact absurd hl2 (by simp)
      have hhead : ∀ hne : L ≠ [], L.head hne = o := fun hne =>
        cycleList_reverse_head par o m hmpos hcyc hne
      have hpairs : ∀ a b : Fin n,
          ((b, a) ∈ L.zip L.tail ∨ (a = o ∧ b = L.getLast hLne)) ↔
          (a ∈ cl ∧ b = par a) := by
        intro a b
        have h0 : ((b, a) ∈ L.zip L.tail ∨ (a = L.head hLne ∧ b = L.getLast hLne)) ↔
            (a ∈ cl ∧ b = par a) := cycle_pairs_iff par o m hm2 hcyc hLne a b
        rw [hhead hLne] at h0
        exact h0
      -- merged graph satisfies the induction hypotheses
      have hmdiag : ∀ c : Fin (n - L.length + 1), md.graphNew c c = ⊥ := by
        intro c
        rw [hgNew]
        rcases hfin_all c with hlt | heq
        · rw [mergedGraph_oo (clearRow g r) _ _ V hvnd c c hlt hlt]
          exact hg1diag _
        · exact mergedGraph_ll (clearRow g r) _ _ V c c heq heq
      have hproj : ∀ u a : Fin n, Relation.ReflTransGen (gEdge (clearRow g r)) u a →
          Relation.ReflTransGen (gEdge md.graphNew) (md.vmap u) (md.vmap a) := by
        intro u a h
        induction h with
        | refl => exact Relation.ReflTransGen.refl
        | @tail b c hab hbc ih2 =>
          by_cases hcL : c ∈ cl
          · by_cases hbL : b ∈ cl
            · have hbc2 : md.vmap b = md.vmap c :=
                Fin.ext (by rw [hvcl b hbL, hvcl c hcL])
              rw [← hbc2]
              exact ih2
            · have hbV : b ∈ V := (hmemV b).2 hbL
              refine Relation.ReflTransGen.tail ih2 ?_
              show ¬ md.graphNew (md.vmap c) (md.vmap b) = ⊥
              rw [hgNew,
                mergedGraph_lo (clearRow g r) _ _ V hvnd _ _ (hvcl c hcL) (hvlt b hbV),
                hvgetx b hbV]
              have hkey := htlKey c (by rw [hL_def, List.mem_reverse]; exact hcL) b hbV hbc
              rcases hopt : dictGet (toLoopDicts (clearRow g r) par L V).2 b.val with _ | w
              · rw [hopt] at hkey
                exact absurd hkey (by simp)
              · have hw := htlW _ _ hopt
                simpa using hw
          · have hcV : c ∈ V := (hmemV c).2 hcL
            by_cases hbL : b ∈ cl
            · refine Relation.ReflTransGen.tail ih2 ?_
              show ¬ md.graphNew (md.vmap c) (md.vmap b) = ⊥
              rw [hgNew,
                mergedGraph_ol (clearRow g r) _ _ V hvnd _ _ (hvlt c hcV) (hvcl b hbL),
                hvgetx c hcV]
              have hkey := hflKey b (by rw [hL_def, List.mem_reverse]; exact hbL) c hcV hbc
              rcases hopt : dictGet (fromLoopDicts (clearRow g r) L V).2 c.val with _ | w
              · rw [hopt] at hkey
                exact absurd hkey (by simp)
              · have hw := hflW _ _ hopt
                simpa using hw
            · have hbV : b ∈ V := (hmemV b).2 hbL
              refine Relation.ReflTransGen.tail ih2 ?_
              show ¬ md.graphNew (md.vmap c) (md.vmap b) = ⊥
              rw [hgNew,
                mergedGraph_oo (clearRow g r) _ _ V hvnd _ _ (hvlt c hcV) (hvlt b hbV),
                hvgetx c hcV, hvgetx b hbV]
              exact hbc
      have hmreach : ∀ a2 : Fin (n - L.length + 1),
          Relation.ReflTransGen (gEdge md.graphNew) (md.vmap r) a2 := by
        intro a2
        rcases hfin_all a2 with hlt | heq
        · have ha2 : a2 = md.vmap (V.get ⟨a2.val, hlt⟩) :=
            Fin.ext (by rw [hvgetmd _ hlt])
          rw [ha2]
          exact hproj r _ (hg1reach _)
        · have ha2 : a2 = md.vmap o := Fin.ext (by rw [hvco, heq])
          rw [ha2]
          exact hproj r o (hg1reach o)
      obtain ⟨M2, P2, hM2eq, hM2ind, hP2root, hP2ne, hP2edge, hP2reach⟩ :=
        ih (n - L.length + 1) md.graphNew (md.vmap r)
          (fun k => rng (k + drawsUsed (clearRow g r)))
          (by rw [hLlen]; omega) hmdiag hmreach
      have hvor : ¬ md.vmap o = md.vmap r := by
        intro he
        have hval := congrArg Fin.val he
        rw [hvco] at hval
        have hlt := hvlt r hrV
        omega
      have hPr_ne : ¬ P2 (md.vmap r) = md.vmap o := by
        rw [hP2root]
        intro he
        exact hvor he.symm
      have hguard : ∀ x ∈ V, 0 < M2 (md.vmap x) (md.vmap o) →
          ¬ dictGet md.loopToV x.val = none := by
        intro x hxV hpos
        rw [hM2ind] at hpos
        have hPx : md.vmap o = P2 (md.vmap x) := by
          by_contra hne2
          rw [if_neg hne2] at hpos
          omega
        have hxvr : ¬ md.vmap x = md.vmap r := by
          intro he
          rw [he, hP2root] at hPx
          exact hvor hPx
        have hedge2 := hP2edge (md.vmap x) hxvr
        rw [← hPx, hgNew,
          mergedGraph_ol (clearRow g r) _ _ V hvnd _ _ (hvlt x hxV) hvco,
          hvgetx x hxV] at hedge2
        rw [hlTV]
        intro hnone
        have hs := hflA x.val
        rw [hnone] at hs
        rcases hopt : dictGet (fromLoopDicts (clearRow g r) L V).2 x.val with _ | w
        · rw [hopt] at hedge2
          exact hedge2 rfl
        · rw [hopt] at hs
          exact absurd hs (by simp)
      have hP2o_ne : ¬ P2 (md.vmap o) = md.vmap o := hP2ne (md.vmap o) hvor
      have hbltP : ∀ a : Fin n, ¬ P2 (md.vmap a) = md.vmap o →
          (P2 (md.vmap a)).val < V.length := by
        intro a hPvc
        rcases hfin_all (P2 (md.vmap a)) with h | h
        · exact h
        · exact absurd (Fin.ext (by rw [h, hvco])) hPvc
      have hj0lt : (P2 (md.vmap o)).val < V.length := hbltP o hP2o_ne
      set y0 := V.get ⟨(P2 (md.vmap o)).val, hj0lt⟩ with hy0_def
      have hy0V : y0 ∈ V := by
        rw [hy0_def]
        exact List.get_mem _ _ _
      have hvy0 : md.vmap y0 = P2 (md.vmap o) := by
        apply Fin.ext
        rw [hy0_def, hvgetmd _ hj0lt]
      have hfind : (List.finRange (n - L.length + 1)).find?
          (fun j => decide (0 < M2 (md.vmap o) j)) = some (P2 (md.vmap o)) := by
        apply find?_unique (List.mem_finRange _)
        · rw [decide_eq_true_eq, hM2ind, if_pos rfl]
          omega
        · intro y hy
          rw [decide_eq_true_eq, hM2ind] at hy
          by_contra hne2
          rw [if_neg hne2] at hy
          omega
      have hsrc : V.find? (fun x => decide (md.vmap x = P2 (md.vmap o))) = some y0 := by
        apply find?_unique
        · rw [hy0_def]
          exact List.get_mem _ _ _
        · rw [decide_eq_true_eq]
          exact hvy0
        · intro y hy
          rw [decide_eq_true_eq] at hy
          have hyV : y ∈ V := by
            by_contra hyV
            have hyc : y ∈ cl := by
              by_contra hyc
              exact hyV ((hmemV y).2 hyc)
            have hval := congrArg Fin.val hy
            rw [hvcl y hyc] at hval
            omega
          exact hvinj y y0 hyV hy0V (by rw [hvy0]; exact hy)
      have hedgevc : ¬ md.graphNew (md.vmap o) (P2 (md.vmap o)) = ⊥ :=
        hP2edge (md.vmap o) hvor
      rw [hgNew,
        mergedGraph_lo (clearRow g r) _ _ V hvnd _ _ hvco hj0lt,
        ← hy0_def] at hedgevc
      obtain ⟨wt, hwt⟩ : ∃ w, dictGet (toLoopDicts (clearRow g r) par L V).2 y0.val
          = some w := by
        rcases hopt : dictGet (toLoopDicts (clearRow g r) par L V).2 y0.val with _ | w
        · rw [hopt] at hedgevc
          exact absurd rfl hedgevc
        · exact ⟨w, rfl⟩
      obtain ⟨target, htargetEq⟩ : ∃ t,
          dictGet (toLoopDicts (clearRow g r) par L V).1 y0.val = some t := by
        have hs := htlA y0.val
        rw [hwt] at hs
        rcases hopt1 : dictGet (toLoopDicts (clearRow g r) par L V).1 y0.val with _ | t
        · rw [hopt1] at hs
          exact absurd hs (by simp)
        · exact ⟨t, rfl⟩
      obtain ⟨htL, y9, hy9V, hy9val, hy9edge⟩ := htlV y0.val target htargetEq
      have hy9eq : y9 = y0 := Fin.ext hy9val
      rw [hy9eq] at hy9edge
      have htargetCl : target ∈ cl := by
        have h := htL
        rw [hL_def, List.mem_reverse] at h
        exact h
      have htr : ¬ target = r := hclr target htargetCl
      have hbrk : ∀ hlt2, L.get ⟨(List.indexOf target L + L.length - 1) % L.length, hlt2⟩
          = par target :=
        fun hlt2 => cycle_brk par o m hm2 hcyc target htL hlt2
      have hparTargetCl : par target ∈ cl :=
        cycleList_closed par o m hmpos hcyc target htargetCl
      have hTA : ∀ a : Fin n, a ∈ V → P2 (md.vmap a) = md.vmap o →
          ∃ tA, dictGet (fromLoopDicts (clearRow g r) L V).1 a.val = some tA ∧
            tA ∈ cl ∧ ¬ clearRow g r a tA = ⊥ := by
        intro a haV hPvc
        have hpos : 0 < M2 (md.vmap a) (md.vmap o) := by
          rw [hM2ind, if_pos hPvc.symm]
          omega
        have hnn := hguard a haV hpos
        rw [hlTV] at hnn
        rcases hopt : dictGet (fromLoopDicts (clearRow g r) L V).1 a.val with _ | tA
        · exact absurd hopt hnn
        · obtain ⟨htAL, y2, hy2V, hy2val, hy2edge⟩ := hflV a.val tA hopt
          have hy2a : y2 = a := Fin.ext hy2val
          rw [hy2a] at hy2edge
          refine ⟨tA, rfl, ?_, hy2edge⟩
          rw [hL_def, List.mem_reverse] at htAL
          exact htAL
      -- the expanded parent function
      set Pfun : Fin n → Fin n := fun a =>
        if a = target then y0
        else if a ∈ cl then par a
        else if P2 (md.vmap a) = md.vmap o then
          (dictGet (fromLoopDicts (clearRow g r) L V).1 a.val).getD target
        else V.getD (P2 (md.vmap a)).val r with hPfun
      have hPtargetEq : Pfun target = y0 := by
        rw [hPfun]
        dsimp only
        rw [if_pos rfl]
      have hPloop : ∀ a, ¬ a = target → a ∈ cl → Pfun a = par a := by
        intro a h1 h2
        rw [hPfun]
        dsimp only
        rw [if_neg h1, if_pos h2]
      have hPoutvc : ∀ a, a ∈ V → P2 (md.vmap a) = md.vmap o →
          ∀ tA, dictGet (fromLoopDicts (clearRow g r) L V).1 a.val = some tA →
          Pfun a = tA := by
        intro a haV hPvc tA htAeq
        have hacl : ¬ a ∈ cl := (hmemV a).1 haV
        have hat : ¬ a = target := fun he => hacl (by rw [he]; exact htargetCl)
        rw [hPfun]
        dsimp only
        rw [if_neg hat, if_neg hacl, if_pos hPvc, htAeq, Option.getD_some]
      have hPoutnvc : ∀ a, a ∈ V → ∀ hPvc : ¬ P2 (md.vmap a) = md.vmap o,
          Pfun a = V.get ⟨(P2 (md.vmap a)).val, hbltP a hPvc⟩ := by
        intro a haV hPvc
        have hacl : ¬ a ∈ cl := (hmemV a).1 haV
        have hat : ¬ a = target := fun he => hacl (by rw [he]; exact htargetCl)
        rw [hPfun]
        dsimp only
        rw [if_neg hat, if_neg hacl, if_neg hPvc,
          List.getD_eq_getElem?_getD, List.getElem?_eq_getElem (hbltP a hPvc),
          Option.getD_some, List.get_eq_getElem]
      -- finish unfolding the solver expression
      rw [hhead, hM2eq]
      dsimp only
      rw [if_pos hguard, hfind]
      dsimp only
      rw [hsrc]
      dsimp only
      rw [show dictGet md.vToLoop y0.val = some target
        from by rw [hvTL]; exact htargetEq]
      dsimp only
      rw [if_pos htL]
      refine ⟨_, Pfun, rfl, ?_, ?_, ?_, ?_, ?_⟩
      · -- every row is the indicator of its expanded parent
        intro a b
        rw [hbrk]
        by_cases hat : a = target
        · subst hat
          rw [hPtargetEq]
          by_cases hbb : b = par a
          · rw [if_pos (And.intro rfl hbb)]
            have hbne : ¬ b = y0 := by
              intro he
              apply (hmemV y0).1 hy0V
              rw [← he, hbb]
              exact hparTargetCl
            rw [if_neg hbne]
          · rw [if_neg (fun hc => hbb hc.2)]
            by_cases hby : b = y0
            · rw [if_pos (And.intro rfl hby), if_pos hby]
            · rw [if_neg (fun hc => hby hc.2),
                if_neg (fun hc => (hmemV a).1 hc.1 htargetCl),
                if_neg (fun hc => hbb ((hpairs a b).1 hc).2),
                if_neg (fun hc => (hmemV a).1 hc.1 htargetCl),
                if_neg hby]
        · rw [if_neg (fun hc => hat hc.1), if_neg (fun hc => hat hc.1)]
          by_cases haL : a ∈ cl
          · rw [hPloop a hat haL,
              if_neg (fun hc => (hmemV a).1 hc.1 haL)]
            by_cases hbp : b = par a
            · rw [if_pos ((hpairs a b).2 (And.intro haL hbp)), if_pos hbp]
            · rw [if_neg (fun hc => hbp ((hpairs a b).1 hc).2),
                if_neg (fun hc => (hmemV a).1 hc.1 haL),
                if_neg hbp]
          · have haV : a ∈ V := (hmemV a).2 haL
            by_cases hPvc : P2 (md.vmap a) = md.vmap o
            · obtain ⟨tA, htAeq, htAcl, _⟩ := hTA a haV hPvc
              rw [hPoutvc a haV hPvc tA htAeq]
              have hpos : 0 < M2 (md.vmap a) (md.vmap o) := by
                rw [hM2ind, if_pos hPvc.symm]
                omega
              by_cases hb : b = tA
              · rw [if_pos (And.intro haV (And.intro hpos
                  (by rw [hlTV, hb]; exact htAeq)))]
                rw [hM2ind, if_pos hPvc.symm, if_pos hb]
              · rw [if_neg (fun hc => hb (by
                    have h3 := hc.2.2
                    rw [hlTV, htAeq] at h3
                    injection h3 with h3
                    exact h3.symm)),
                  if_neg (fun hc => haL ((hpairs a b).1 hc).1)]
                by_cases hbV : b ∈ V
                · rw [if_pos (And.intro haV hbV), hM2ind,
                    if_neg (fun he => by
                      have hval := congrArg Fin.val (he.trans hPvc)
                      rw [hvco] at hval
                      have hlt := hvlt b hbV
                      omega),
                    if_neg hb]
                · rw [if_neg (fun hc => hbV hc.2), if_neg hb]
            · have hPa := hPoutnvc a haV hPvc
              rw [hPa]
              have hposne : ¬ 0 < M2 (md.vmap a) (md.vmap o) := by
                rw [hM2ind, if_neg (fun he => hPvc he.symm)]
                omega
              rw [if_neg (fun hc => hposne hc.2.1),
                if_neg (fun hc => haL ((hpairs a b).1 hc).1)]
              by_cases hbV : b ∈ V
              · rw [if_pos (And.intro haV hbV), hM2ind]
                by_cases hbb0 : b = V.get ⟨(P2 (md.vmap a)).val, hbltP a hPvc⟩
                · rw [if_pos (by rw [hbb0]; exact Fin.ext (hvgetmd _ (hbltP a hPvc))),
                    if_pos hbb0]
                · rw [if_neg (fun he => hbb0 (hvinj b _ hbV (List.get_mem _ _ _)
                      (by rw [he]; exact (Fin.ext (hvgetmd _ (hbltP a hPvc))).symm))),
                    if_neg hbb0]
              · rw [if_neg (fun hc => hbV hc.2),
                  if_neg (fun he => hbV (by rw [he]; exact List.get_mem _ _ _))]
      · -- the root keeps its marker
        have hrt : ¬ r = target := fun he => htr he.symm
        have hrcl : ¬ r ∈ cl := fun hrc => hclr r hrc rfl
        rw [hPfun]
        dsimp only
        rw [if_neg hrt, if_neg hrcl, if_neg hPr_ne, hP2root,
          List.getD_eq_getElem?_getD, List.getElem?_eq_getElem (hvlt r hrV),
          Option.getD_some]
        have h := hvgetx r hrV
        rw [List.get_eq_getElem] at h
        exact h
      · -- no self-parents outside the root
        intro a har
        by_cases hat : a = target
        · rw [hat, hPtargetEq]
          intro he
          exact (hmemV y0).1 hy0V (by rw [he]; exact htargetCl)
        · by_cases haL : a ∈ cl
          · rw [hPloop a hat haL]
            exact hparNe a har
          · have haV : a ∈ V := (hmemV a).2 haL
            by_cases hPvc : P2 (md.vmap a) = md.vmap o
            · obtain ⟨tA, htAeq, htAcl, _⟩ := hTA a haV hPvc
              rw [hPoutvc a haV hPvc tA htAeq]
              intro he
              exact haL (he ▸ htAcl)
            · rw [hPoutnvc a haV hPvc]
              intro he
              have h1 := congrArg (fun z => (md.vmap z).val) he
              dsimp only at h1
              rw [hvgetmd _ (hbltP a hPvc)] at h1
              have hv2 : md.vmap a = P2 (md.vmap a) := Fin.ext h1.symm
              have hamr : ¬ md.vmap a = md.vmap r :=
                fun he2 => har (hvinj a r haV hrV he2)
              exact hP2ne (md.vmap a) hamr hv2.symm
      · -- every expanded parent edge is a real graph edge
        intro a har
        by_cases hat : a = target
        · rw [hat, hPtargetEq]
          have h := hy9edge
          rwa [clearRow_off g r target y0 htr] at h
        · by_cases haL : a ∈ cl
          · rw [hPloop a hat haL]
            exact hparEg a har
          · have haV : a ∈ V := (hmemV a).2 haL
            by_cases hPvc : P2 (md.vmap a) = md.vmap o
            · obtain ⟨tA, htAeq, htAcl, htAedge⟩ := hTA a haV hPvc
              rw [hPoutvc a haV hPvc tA htAeq]
              rwa [clearRow_off g r a tA har] at htAedge
            · rw [hPoutnvc a haV hPvc]
              have hamr : ¬ md.vmap a = md.vmap r :=
                fun he2 => har (hvinj a r haV hrV he2)
              have hedge2 := hP2edge (md.vmap a) hamr
              rw [hgNew,
                mergedGraph_oo (clearRow g r) _ _ V hvnd _ _ (hvlt a haV) (hbltP a hPvc),
                hvgetx a haV,
                clearRow_off g r a _ har] at hedge2
              exact hedge2
      · -- every node reaches the root along expanded parents
        have hchain : ∀ (k : ℕ) (a : Fin n), P2^[k] (md.vmap a) = md.vmap r →
            ∃ k2, Pfun^[k2] a = r := by
          intro k
          induction k with
          | zero =>
            intro a ha
            rw [Function.iterate_zero_apply] at ha
            have har : a = r := by
              by_cases haL : a ∈ cl
              · exfalso
                have hval := congrArg Fin.val ha
                rw [hvcl a haL] at hval
                have hlt := hvlt r hrV
                omega
              · exact hvinj a r ((hmemV a).2 haL) hrV ha
            refine ⟨0, ?_⟩
            rw [Function.iterate_zero_apply]
            exact har
          | succ k ihk =>
            intro a ha
            by_cases har : a = r
            · refine ⟨0, ?_⟩
              rw [Function.iterate_zero_apply]
              exact har
            · by_cases haL : a ∈ cl
              · have havm : md.vmap a = md.vmap o :=
                  Fin.ext (by rw [hvcl a haL, hvco])
                rw [havm, Function.iterate_succ_apply, ← hvy0] at ha
                obtain ⟨k2, hk2⟩ := ihk y0 ha
                have hex : ∃ t, par^[t] a = target := by
                  obtain ⟨s, _, hse⟩ :=
                    cycleList_iterate_reach par o m hmpos hcyc a target haL htargetCl
                  exact ⟨s, hse⟩
                have hPeq : ∀ s, s ≤ Nat.find hex → Pfun^[s] a = par^[s] a := by
                  intro s
                  induction s with
                  | zero =>
                    intro _
                    rw [Function.iterate_zero_apply, Function.iterate_zero_apply]
                  | succ s ihs =>
                    intro hst
                    rw [Function.iterate_succ_apply', Function.iterate_succ_apply',
                      ihs (by omega)]
                    have hmem : par^[s] a ∈ cl :=
                      cycleList_iterate_mem par o m hmpos hcyc a haL s
                    have hneq : ¬ par^[s] a = target := Nat.find_min hex (by omega)
                    rw [hPfun]
                    dsimp only
                    rw [if_neg hneq, if_pos hmem]
                have hfs := Nat.find_spec hex
                refine ⟨Nat.find hex + 1 + k2, ?_⟩
                rw [show Nat.find hex + 1 + k2 = k2 + (Nat.find hex + 1) by omega,
                  Function.iterate_add_apply]
                have hstep : Pfun^[Nat.find hex + 1] a = y0 := by
                  rw [Function.iterate_succ_apply', hPeq (Nat.find hex) le_rfl, hfs,
                    hPtargetEq]
                rw [hstep]
                exact hk2
              · have haV : a ∈ V := (hmemV a).2 haL
                rw [Function.iterate_succ_apply] at ha
                by_cases hPvc : P2 (md.vmap a) = md.vmap o
                · obtain ⟨tA, htAeq, htAcl, _⟩ := hTA a haV hPvc
                  have hPa := hPoutvc a haV hPvc tA htAeq
                  have hvta : md.vmap tA = P2 (md.vmap a) := by
                    rw [hPvc]
                    exact Fin.ext (by rw [hvcl tA htAcl, hvco])
                  rw [← hvta] at ha
                  obtain ⟨k2, hk2⟩ := ihk tA ha
                  refine ⟨k2 + 1, ?_⟩
                  rw [Function.iterate_succ_apply, hPa]
                  exact hk2
                · have hPa := hPoutnvc a haV hPvc
                  have hvb0 : md.vmap (V.get ⟨(P2 (md.vmap a)).val, hbltP a hPvc⟩)
                      = P2 (md.vmap a) := Fin.ext (hvgetmd _ (hbltP a hPvc))
                  rw [← hvb0] at ha
                  obtain ⟨k2, hk2⟩ := ihk _ ha
                  refine ⟨k2 + 1, ?_⟩
                  rw [Function.iterate_succ_apply, hPa]
                  exact hk2
        intro a
        obtain ⟨k, hk⟩ := hP2reach (md.vmap a)
        exact hchain k a hk
    · -- no cycle: the parent matrix is returned directly
      rw [show ecl (fuel + 1) n g r rng = eclBody n (clearRow g r)
          (parentsFn (clearRow g r) rng) r
          (check_loop (adjOf (parentsFn (clearRow g r) rng) r))
          (fun m2 gm rm => ecl fuel m2 gm rm
            (fun k => rng (k + drawsUsed (clearRow g r)))) from rfl]
      rw [hCL, eclBody]
      dsimp only
      rw [dif_neg (show ¬ 2 ≤ ([] : List (Fin n)).length by simp)]
      refine ⟨_, fun i => if i = r then r else parentsFn (clearRow g r) rng i, rfl,
        ?_, if_pos rfl, ?_, ?_, ?_⟩
      · intro i j
        dsimp only
        by_cases hir : i = r
        · rw [if_pos hir, if_pos hir]
        · rw [if_neg hir, if_neg hir]
      · intro i hi
        show ¬ (if i = r then r else parentsFn (clearRow g r) rng i) = i
        rw [if_neg hi]
        exact hparNe i hi
      · intro i hi
        show ¬ g i (if i = r then r else parentsFn (clearRow g r) rng i) = ⊥
        rw [if_neg hi]
        exact hparEg i hi
      · intro a
        obtain ⟨k, hk⟩ :=
          no_cycle_reaches (parentsFn (clearRow g r) rng) r hparNe hnc a
        exact reach_update_root (parentsFn (clearRow g r) rng) r k a hk

/-- **C1** (corrected).  For a log-weight adjacency matrix with `-inf`
diagonal — as the caller always supplies, taking `np.log` of a matrix with
zero diagonal — and a root `r` from which every node is reachable,
`edmond_chu_liu` returns `Except.ok M` for a 0/1 matrix `M` whose off-diagonal
part is a spanning arborescence rooted at `r`: every non-root row `i` is the
indicator of a single parent `p ≠ i` along a genuine input edge, the root row
is zero off the diagonal, the edge relation has no directed cycle and reaches
every node from `r`.  Contrary to the claim, the root row is not empty: line
262 writes the diagonal marker `M[r][r] = 1`, so `M` contains `n` ones, of
which `n − 1` are off-diagonal edges. -/
theorem edmond_chu_liu_arborescence (fuel n : ℕ) (g : Fin n → Fin n → WithBot W)
    (r : Fin n) (rng : ℕ → ℕ) (hfuel : n ≤ fuel) (hdiag : ∀ i, g i i = ⊥)
    (hreach : ∀ a, Relation.ReflTransGen (gEdge g) r a) :
    ∃ M, (edmond_chu_liu fuel n g r rng).1 = Except.ok M ∧
      M r r = 1 ∧ (∀ j, ¬ j = r → M r j = 0) ∧
      (∀ i, ¬ i = r → ∃ p, ¬ p = i ∧ ¬ g i p = ⊥ ∧ M i p = 1 ∧
        ∀ j, ¬ j = p → M i j = 0) ∧
      (∀ a, Relation.ReflTransGen (mstEdge M) r a) ∧
      (∀ a, ¬ Relation.TransGen (mstEdge M) a a) ∧
      (Finset.univ.filter
        (fun q : Fin n × Fin n => ¬ q.1 = q.2 ∧ M q.1 q.2 = 1)).card = n - 1 := by
  obtain ⟨M, P, hok, hMP, hPr, hPne, hPedge, hPreach⟩ :=
    ecl_spec fuel n g r rng hfuel hdiag hreach
  have hreachM : ∀ k a, P^[k] a = r → Relation.ReflTransGen (mstEdge M) r a := by
    intro k
    induction k with
    | zero =>
      intro a ha
      rw [Function.iterate_zero_apply] at ha
      subst ha
      exact Relation.ReflTransGen.refl
    | succ k ihk =>
      intro a ha
      by_cases har : a = r
      · subst har
        exact Relation.ReflTransGen.refl
      · rw [Function.iterate_succ_apply] at ha
        refine Relation.ReflTransGen.tail (ihk (P a) ha) ?_
        show M a (P a) = 1 ∧ ¬ a = P a
        refine ⟨?_, fun he => hPne a har he.symm⟩
        rw [hMP a (P a), if_pos rfl]
  have htg : ∀ x y, Relation.TransGen (mstEdge M) x y →
      ∃ j, 1 ≤ j ∧ P^[j] y = x ∧ ∀ i, i < j → ¬ P^[i] y = r := by
    intro x y h
    induction h with
    | single hxb =>
      rename_i b
      have hx : x = P b := by
        by_contra hc
        have h1 := hxb.1
        rw [hMP b x, if_neg hc] at h1
        omega
      have hbr : ¬ b = r := by
        intro hbrr
        have h1 := hxb.1
        rw [hbrr, hMP r x, hPr] at h1
        rw [if_neg (fun hxr => hxb.2 (hbrr.trans hxr.symm))] at h1
        omega
      refine ⟨1, le_refl 1, ?_, ?_⟩
      · rw [Function.iterate_one, ← hx]
      · intro i hi
        rw [Nat.lt_one_iff] at hi
        rw [hi, Function.iterate_zero_apply]
        exact hbr
    | tail hab hbc ih =>
      rename_i b c
      obtain ⟨j, hj1, hjP, hjr⟩ := ih
      have hb : b = P c := by
        by_contra hc2
        have h1 := hbc.1
        rw [hMP c b, if_neg hc2] at h1
        omega
      have hcr : ¬ c = r := by
        intro hcrr
        have h1 := hbc.1
        rw [hcrr, hMP r b, hPr] at h1
        rw [if_neg (fun hbr2 => hbc.2 (hcrr.trans hbr2.symm))] at h1
        omega
      refine ⟨j + 1, by omega, ?_, ?_⟩
      · rw [Function.iterate_succ_apply, ← hb, hjP]
      · intro i hi
        rcases Nat.eq_zero_or_pos i with h0 | hp
        · rw [h0, Function.iterate_zero_apply]
          exact hcr
        · rw [show i = (i - 1) + 1 by omega, Function.iterate_succ_apply, ← hb]
          exact hjr (i - 1) (by omega)
  have hnocyc : ∀ a, ¬ Relation.TransGen (mstEdge M) a a := by
    intro a hcyc
    obtain ⟨m, hm1, hma, hmr⟩ := htg a a hcyc
    obtain ⟨k, hk⟩ := hPreach a
    have hall : ∀ k2, ¬ P^[k2] a = r := by
      intro k2
      induction k2 using Nat.strong_induction_on with
      | _ k2 ihk =>
        by_cases hkm : k2 < m
        · exact hmr k2 hkm
        · have he : P^[k2] a = P^[k2 - m] a := by
            conv_lhs => rw [show k2 = (k2 - m) + m by omega]
            rw [Function.iterate_add_apply, hma]
          rw [he]
          exact ihk (k2 - m) (by omega)
    exact hall k hk
  have hset : (Finset.univ.filter
      (fun q : Fin n × Fin n => ¬ q.1 = q.2 ∧ M q.1 q.2 = 1))
      = (Finset.univ.erase r).image (fun i => (i, P i)) := by
    ext q
    simp only [Finset.mem_filter, Finset.mem_image, Finset.mem_erase, Finset.mem_univ,
      true_and, and_true]
    constructor
    · rintro ⟨hne, hone⟩
      have hq2 : q.2 = P q.1 := by
        by_contra hc
        rw [hMP q.1 q.2, if_neg hc] at hone
        omega
      refine ⟨q.1, ?_, ?_⟩
      · intro he
        apply hne
        rw [hq2, he, hPr]
      · show (q.1, P q.1) = q
        rw [← hq2]
    · rintro ⟨i, hir, heq⟩
      have h1 : i = q.1 := by rw [← heq]
      have h2 : P i = q.2 := by rw [← heq]
      constructor
      · rw [← h1, ← h2]
        intro he
        exact hPne i hir he.symm
      · rw [← h1, ← h2, hMP i (P i), if_pos rfl]
  have hinj : Set.InjOn (fun i : Fin n => (i, P i)) ↑(Finset.univ.erase r) := by
    intro x _ y _ hxy
    exact congrArg Prod.fst hxy
  refine ⟨M, hok, ?_, ?_, ?_, ?_, hnocyc, ?_⟩
  · rw [hMP r r, if_pos hPr.symm]
  · intro j hj
    rw [hMP r j, if_neg (fun hc => hj (hc.trans hPr))]
  · intro i hi
    refine ⟨P i, hPne i hi, hPedge i hi, ?_, ?_⟩
    · rw [hMP i (P i), if_pos rfl]
    · intro j hj
      rw [hMP i j, if_neg hj]
  · intro a
    obtain ⟨k, hk⟩ := hPreach a
    exact hreachM k a hk
  · rw [hset, Finset.card_image_of_injOn hinj,
      Finset.card_erase_of_mem (Finset.mem_univ r), Finset.card_univ, Fintype.card_fin]

/-- Witness for C1: the three-node graph `hpG3` (root edges of weight 1 into
nodes 1 and 2, a heavy 2-cycle between them) satisfies every hypothesis at
`fuel = 3`, and the conclusion holds there. -/
theorem edmond_chu_liu_arborescence_witness :
    (3 ≤ 3 ∧ (∀ i, hpG3 i i = ⊥) ∧
      (∀ a, Relation.ReflTransGen (gEdge hpG3) (0 : Fin 3) a)) ∧
    ∃ M, (edmond_chu_liu 3 3 hpG3 (0 : Fin 3) (fun _ => 0)).1 = Except.ok M ∧
      M 0 0 = 1 ∧ (∀ j, ¬ j = 0 → M 0 j = 0) ∧
      (∀ i, ¬ i = (0 : Fin 3) → ∃ p, ¬ p = i ∧ ¬ hpG3 i p = ⊥ ∧ M i p = 1 ∧
        ∀ j, ¬ j = p → M i j = 0) ∧
      (∀ a, Relation.ReflTransGen (mstEdge M) 0 a) ∧
      (∀ a, ¬ Relation.TransGen (mstEdge M) a a) ∧
      (Finset.univ.filter
        (fun q : Fin 3 × Fin 3 => ¬ q.1 = q.2 ∧ M q.1 q.2 = 1)).card = 3 - 1 := by
  have hdiag : ∀ i, hpG3 i i = ⊥ := by decide
  have hreach : ∀ a, Relation.ReflTransGen (gEdge hpG3) (0 : Fin 3) a := by
    intro a
    fin_cases a
    · exact Relation.ReflTransGen.refl
    · exact Relation.ReflTransGen.single (show ¬ hpG3 1 0 = ⊥ by decide)
    · exact Relation.ReflTransGen.single (show ¬ hpG3 2 0 = ⊥ by decide)
  exact ⟨⟨le_refl 3, hdiag, hreach⟩,
    edmond_chu_liu_arborescence 3 3 hpG3 0 (fun _ => 0) (le_refl 3) hdiag hreach⟩

/-- Counterexample for C1 as stated: on the two-node chain `0 → 1` with root
`0` — every node reachable from the root — the returned matrix is
`[[1, 0], [1, 0]]`.  The root row is not zero: the solver writes the diagonal
marker `mst[r][r] = 1` (line 262), so the output contains an entry in the root
row and `n = 2` ones rather than `n − 1 = 1`. -/
theorem edmond_chu_liu_root_row_marker :
    (∀ a, Relation.ReflTransGen (gEdge cexG2) (0 : Fin 2) a) ∧
    ((edmond_chu_liu 2 2 cexG2 (0 : Fin 2) (fun _ => 0)).1.toOption.map
      (fun M => (M 0 0, M 0 1, M 1 0, M 1 1))) = some ((1 : ℕ), 0, 1, 0) := by
  constructor
  · intro a
    fin_cases a
    · exact Relation.ReflTransGen.refl
    · exact Relation.ReflTransGen.single (show ¬ cexG2 1 0 = ⊥ by decide)
  · decide

end ArborescenceProof
